import Mathlib

/-!
Verification development for the vec-db repository: a vector database with a
common index contract, an exact brute-force index, an approximate HNSW graph
index, and a versioned persistence codec.

The repository's `src/` tree contains only the two package `__init__.py`
modules (re-exporting `VectorDB`, `BaseIndex`, `BruteForceIndex`, `HNSWIndex`
from the external `vec_db` package); the index implementations themselves are
not present under `src/`.  The index data model and operations below are
therefore modelled from the specification (spec.md §3, §4, §6, §7), with the
scalar type taken as `Int` (exact arithmetic standing in for the spec's
floating-point scalars) and squared Euclidean distance as the distance metric
(order-equivalent to the spec's Euclidean metric, hence preserving every
ordering-, tie-, and error-related property at issue).  The two `__init__.py`
module bodies, which are genuine source, are embedded literally at the end.
-/

/-- Modelled from the spec: the error taxonomy of §7 (the index
implementations are not under `src/`). -/
inductive IndexError
  | DimensionMismatch
  | DuplicateId
  | NotFound
  | InvalidArgument
  | EmptyIndex
  | CorruptIndex
deriving DecidableEq, Repr

/-- Modelled from the spec: squared Euclidean distance between two vectors
(§2 DistanceMetric; squared to stay in exact arithmetic, order-equivalent). -/
def sqDist (a b : List Int) : Int :=
  (List.zipWith (fun x y => (x - y) * (x - y)) a b).foldl (· + ·) 0

/-- Result-ordering relation of the search contract (§4.1, §4.2): ascending
distance, ties broken by ascending internal id. -/
def pairLE (a b : Nat × Int) : Prop :=
  a.2 < b.2 ∨ (a.2 = b.2 ∧ a.1 ≤ b.1)

/-- Strict version of `pairLE`: strictly ascending distance, or equal
distance with strictly ascending internal id. -/
def pairLT (a b : Nat × Int) : Prop :=
  a.2 < b.2 ∨ (a.2 = b.2 ∧ a.1 < b.1)

instance : DecidableRel pairLE := fun a b =>
  inferInstanceAs (Decidable (a.2 < b.2 ∨ (a.2 = b.2 ∧ a.1 ≤ b.1)))

instance : DecidableRel pairLT := fun a b =>
  inferInstanceAs (Decidable (a.2 < b.2 ∨ (a.2 = b.2 ∧ a.1 < b.1)))

theorem pairLE_trans : ∀ (a b c : Nat × Int), pairLE a b → pairLE b c → pairLE a c := by
  rintro ⟨i, d⟩ ⟨j, e⟩ ⟨l, f⟩ (h | ⟨h, h'⟩) (g | ⟨g, g'⟩)
  · exact Or.inl (lt_trans h g)
  · exact Or.inl (g ▸ h)
  · exact Or.inl (h ▸ g)
  · exact Or.inr ⟨h.trans g, le_trans h' g'⟩

theorem pairLE_total : ∀ (a b : Nat × Int), pairLE a b ∨ pairLE b a := by
  rintro ⟨i, d⟩ ⟨j, e⟩
  rcases lt_trichotomy d e with h | h | h
  · exact Or.inl (Or.inl h)
  · rcases Nat.le_total i j with h' | h'
    · exact Or.inl (Or.inr ⟨h, h'⟩)
    · exact Or.inr (Or.inr ⟨h.symm, h'⟩)
  · exact Or.inr (Or.inl h)

instance : IsTrans (Nat × Int) pairLE := ⟨pairLE_trans⟩

instance : IsTotal (Nat × Int) pairLE := ⟨pairLE_total⟩

/-- Sort `(internal_id, distance)` pairs ascending by distance, ties by
ascending id (the comparator contract shared by both index variants). -/
def distSort (ps : List (Nat × Int)) : List (Nat × Int) :=
  List.insertionSort pairLE ps

/-- The final step of every `search`: sort by the comparator contract and
return the `k` best. -/
def sortTake (k : Nat) (ps : List (Nat × Int)) : List (Nat × Int) :=
  (distSort ps).take k

/-- Keep only the first pair carrying each internal id (the beam-search
result list is a set keyed by internal id). -/
def dedupKeysAux (seen : List Nat) : List (Nat × Int) → List (Nat × Int)
  | [] => []
  | p :: rest =>
    if p.1 ∈ seen then dedupKeysAux seen rest
    else p :: dedupKeysAux (p.1 :: seen) rest

/-- Entry point of `dedupKeysAux` with nothing seen yet. -/
def dedupKeys (ps : List (Nat × Int)) : List (Nat × Int) :=
  dedupKeysAux [] ps

theorem dedupKeysAux_subset (seen : List Nat) (ps : List (Nat × Int)) :
    ∀ p ∈ dedupKeysAux seen ps, p ∈ ps := by
  induction ps generalizing seen with
  | nil => intro p hp; simp [dedupKeysAux] at hp
  | cons q rest ih =>
    intro p hp
    by_cases hq : q.1 ∈ seen
    · simp only [dedupKeysAux, if_pos hq] at hp
      exact List.mem_cons_of_mem _ (ih seen p hp)
    · simp only [dedupKeysAux, if_neg hq, List.mem_cons] at hp
      rcases hp with h | h
      · exact h ▸ List.mem_cons_self _ _
      · exact List.mem_cons_of_mem _ (ih _ p h)

theorem dedupKeysAux_nodup (seen : List Nat) (ps : List (Nat × Int)) :
    ((dedupKeysAux seen ps).map Prod.fst).Nodup ∧
      ∀ p ∈ dedupKeysAux seen ps, p.1 ∉ seen := by
  induction ps generalizing seen with
  | nil => exact ⟨by simp [dedupKeysAux], by simp [dedupKeysAux]⟩
  | cons q rest ih =>
    by_cases hq : q.1 ∈ seen
    · refine ⟨?_, ?_⟩
      · simpa [dedupKeysAux, if_pos hq] using (ih seen).1
      · intro p hp
        simp only [dedupKeysAux, if_pos hq] at hp
        exact (ih seen).2 p hp
    · obtain ⟨ihn, ihs⟩ := ih (q.1 :: seen)
      refine ⟨?_, ?_⟩
      · simp only [dedupKeysAux, if_neg hq, List.map_cons, List.nodup_cons]
        refine ⟨?_, ihn⟩
        intro hmem
        obtain ⟨p, hp, hfst⟩ := List.mem_map.mp hmem
        exact ihs p hp (hfst ▸ List.mem_cons_self _ _)
      · intro p hp
        simp only [dedupKeysAux, if_neg hq, List.mem_cons] at hp
        rcases hp with h | h
        · exact h ▸ hq
        · intro hmem
          exact ihs p h (List.mem_cons_of_mem _ hmem)

theorem dedupKeys_subset (ps : List (Nat × Int)) : ∀ p ∈ dedupKeys ps, p ∈ ps :=
  dedupKeysAux_subset [] ps

theorem dedupKeys_nodup (ps : List (Nat × Int)) :
    ((dedupKeys ps).map Prod.fst).Nodup :=
  (dedupKeysAux_nodup [] ps).1

theorem sortTake_length_le (k : Nat) (ps : List (Nat × Int)) :
    (sortTake k ps).length ≤ k := by
  simp only [sortTake, List.length_take]
  exact Nat.min_le_left _ _

theorem distSort_sorted (ps : List (Nat × Int)) :
    List.Pairwise pairLE (distSort ps) :=
  List.sorted_insertionSort pairLE ps

theorem distSort_perm (ps : List (Nat × Int)) : (distSort ps).Perm ps :=
  List.perm_insertionSort pairLE ps

theorem sortTake_sorted (k : Nat) (ps : List (Nat × Int)) :
    List.Pairwise pairLE (sortTake k ps) :=
  (distSort_sorted ps).sublist (List.take_sublist k (distSort ps))

theorem sortTake_subset (k : Nat) (ps : List (Nat × Int)) :
    ∀ p ∈ sortTake k ps, p ∈ ps := by
  intro p hp
  exact (distSort_perm ps).mem_iff.mp ((List.take_sublist k (distSort ps)).subset hp)

theorem sortTake_sorted_strict (k : Nat) (ps : List (Nat × Int))
    (h : (ps.map Prod.fst).Nodup) :
    List.Pairwise pairLT (sortTake k ps) := by
  have hperm : ((distSort ps).map Prod.fst).Perm (ps.map Prod.fst) :=
    (distSort_perm ps).map Prod.fst
  have hnodup : ((distSort ps).map Prod.fst).Nodup := hperm.nodup_iff.mpr h
  have hne : List.Pairwise (fun a b : Nat × Int => a.1 ≠ b.1) (distSort ps) :=
    List.pairwise_map.mp hnodup
  have hboth := (distSort_sorted ps).and hne
  have hstrict : List.Pairwise pairLT (distSort ps) := by
    refine hboth.imp ?_
    rintro a b ⟨hle | ⟨heq, hle⟩, hne'⟩
    · exact Or.inl hle
    · exact Or.inr ⟨heq, lt_of_le_of_ne hle hne'⟩
  exact hstrict.sublist (List.take_sublist k (distSort ps))

/-- Modelled from the spec: one storage slot of the brute-force index
(§4.2; `remove` tombstones the slot so ids stay stable). -/
structure BFEntry where
  eid : Nat
  vec : List Int
  deleted : Bool
deriving DecidableEq, Repr

/-- Modelled from the spec: the exact linear-scan index (§4.2), a dense
collection of slots keyed by internal id, with fixed dimensionality. -/
structure BruteForceIndex where
  dim : Nat
  entries : List BFEntry
deriving DecidableEq, Repr

namespace BruteForceIndex

/-- All internal ids ever stored (live or tombstoned). -/
def allIds (s : BruteForceIndex) : List Nat :=
  s.entries.map BFEntry.eid

/-- The live (non-tombstoned) slots. -/
def liveEntries (s : BruteForceIndex) : List BFEntry :=
  s.entries.filter (fun e => !e.deleted)

/-- Count of live vectors (spec §4.1 `size`). -/
def size (s : BruteForceIndex) : Nat :=
  s.liveEntries.length

/-- Whether internal id `i` is currently live. -/
def isLive (s : BruteForceIndex) (i : Nat) : Bool :=
  s.liveEntries.any (fun e => e.eid == i)

/-- Well-formedness: internal ids are unique (spec §3 InternalId is a unique
caller-supplied id, enforced by `DuplicateId`). -/
def WF (s : BruteForceIndex) : Prop :=
  s.allIds.Nodup

/-- Modelled from the spec: `add` (§4.1/§4.2) in result-and-state form —
validate dimensionality, then id freshness, then append the new live slot. -/
def addR (s : BruteForceIndex) (i : Nat) (v : List Int) :
    Except IndexError Unit × BruteForceIndex :=
  if v.length ≠ s.dim then (.error .DimensionMismatch, s)
  else if i ∈ s.allIds then (.error .DuplicateId, s)
  else (.ok (), { s with entries := s.entries ++ [⟨i, v, false⟩] })

/-- `add` as a fallible state transformer. -/
def add (s : BruteForceIndex) (i : Nat) (v : List Int) :
    Except IndexError BruteForceIndex :=
  match addR s i v with
  | (.ok _, s') => .ok s'
  | (.error e, _) => .error e

/-- Tombstone the first live slot carrying id `i`; `none` when no live slot
carries it. -/
def markFirst : List BFEntry → Nat → Option (List BFEntry)
  | [], _ => none
  | e :: rest, i =>
    if e.eid = i ∧ e.deleted = false then some ({ e with deleted := true } :: rest)
    else match markFirst rest i with
      | some rest' => some (e :: rest')
      | none => none

/-- Modelled from the spec: `remove` (§4.1/§4.2) in result-and-state form —
`NotFound` when the id is not live, otherwise tombstone its slot. -/
def removeR (s : BruteForceIndex) (i : Nat) :
    Except IndexError Unit × BruteForceIndex :=
  match markFirst s.entries i with
  | some es => (.ok (), { s with entries := es })
  | none => (.error .NotFound, s)

/-- `remove` as a fallible state transformer. -/
def remove (s : BruteForceIndex) (i : Nat) : Except IndexError BruteForceIndex :=
  match removeR s i with
  | (.ok _, s') => .ok s'
  | (.error e, _) => .error e

/-- Distance of the query to every live vector, paired with its id. -/
def livePairs (s : BruteForceIndex) (q : List Int) : List (Nat × Int) :=
  s.liveEntries.map (fun e => (e.eid, sqDist q e.vec))

/-- Modelled from the spec: `search` (§4.1/§4.2) — validate the query, scan
every live vector, return the `k` smallest distances ascending, ties by
ascending id; an index with zero live vectors yields the empty sequence. -/
def search (s : BruteForceIndex) (q : List Int) (k : Nat) :
    Except IndexError (List (Nat × Int)) :=
  if q.length ≠ s.dim then .error .DimensionMismatch
  else if k = 0 then .error .InvalidArgument
  else .ok (sortTake k (livePairs s q))

end BruteForceIndex

/-- Modelled from the spec: the self-describing persistence stream for the
brute-force index (§4.4, §6): versioned header plus live vector records. -/
structure SavedBF where
  version : Nat
  variantTag : Nat
  dim : Nat
  metricTag : Nat
  declaredCount : Nat
  records : List (Nat × List Int)
deriving DecidableEq, Repr

namespace BruteForceIndex

/-- Modelled from the spec: `save` (§4.4) — header plus one record per live
vector, in storage order. -/
def save (s : BruteForceIndex) : SavedBF :=
  { version := 1, variantTag := 0, dim := s.dim, metricTag := 0,
    declaredCount := s.liveEntries.length,
    records := s.liveEntries.map (fun e => (e.eid, e.vec)) }

/-- Modelled from the spec: `load` (§4.4) — reject unknown versions, wrong
variant tags, and count mismatches with `CorruptIndex`; otherwise rebuild a
fresh index from the records. -/
def load (st : SavedBF) : Except IndexError BruteForceIndex :=
  if st.version ≠ 1 then .error .CorruptIndex
  else if st.variantTag ≠ 0 then .error .CorruptIndex
  else if st.declaredCount ≠ st.records.length then .error .CorruptIndex
  else .ok { dim := st.dim, entries := st.records.map (fun r => ⟨r.1, r.2, false⟩) }

theorem load_save (s : BruteForceIndex) :
    load (save s) = .ok { dim := s.dim, entries := s.liveEntries.map (fun e => ⟨e.eid, e.vec, false⟩) } := by
  simp [load, save]

theorem liveEntries_load_save (s : BruteForceIndex) :
    liveEntries { dim := s.dim, entries := s.liveEntries.map (fun e => ⟨e.eid, e.vec, false⟩) } =
      s.liveEntries := by
  show (s.liveEntries.map (fun e => (⟨e.eid, e.vec, false⟩ : BFEntry))).filter (fun e => !e.deleted)
      = s.liveEntries
  rw [List.filter_eq_self.mpr]
  · have : s.liveEntries.map (fun e => (⟨e.eid, e.vec, false⟩ : BFEntry)) = s.liveEntries.map id := by
      apply List.map_congr_left
      intro e he
      have hdel : e.deleted = false := by
        have := (List.mem_filter.mp he).2
        simpa using this
      cases e
      simp_all
    rw [this, List.map_id]
  · intro a ha
    obtain ⟨e, _, rfl⟩ := List.mem_map.mp ha
    rfl

end BruteForceIndex

/-- Modelled from the spec: one HNSW graph node (§3 GraphNode) — vector data,
fixed top layer, per-layer bounded neighbor lists, tombstone flag. -/
structure HNSWNode where
  nid : Nat
  vec : List Int
  topLayer : Nat
  nbrs : List (List Nat)
  deleted : Bool
deriving DecidableEq, Repr

/-- Modelled from the spec: the HNSW index (§3, §4.3) — dimensionality, the
max-degree parameter `M`, the build-time beam width `efC`, the node arena,
and the entry-point id. -/
structure HNSWIndex where
  dim : Nat
  M : Nat
  efC : Nat
  nodes : List HNSWNode
  entry : Option Nat
deriving DecidableEq, Repr

namespace HNSWIndex

/-- All internal ids ever stored (live or tombstoned). -/
def allIds (s : HNSWIndex) : List Nat :=
  s.nodes.map HNSWNode.nid

/-- The live (non-tombstoned) nodes. -/
def liveNodes (s : HNSWIndex) : List HNSWNode :=
  s.nodes.filter (fun n => !n.deleted)

/-- Ids of the live nodes. -/
def liveIds (s : HNSWIndex) : List Nat :=
  s.liveNodes.map HNSWNode.nid

/-- Count of live vectors (spec §4.1 `size`). -/
def size (s : HNSWIndex) : Nat :=
  s.liveNodes.length

/-- First node carrying id `i`, if any. -/
def find? (s : HNSWIndex) (i : Nat) : Option HNSWNode :=
  s.nodes.find? (fun n => n.nid == i)

/-- Whether internal id `i` is currently live. -/
def isLive (s : HNSWIndex) (i : Nat) : Bool :=
  s.liveNodes.any (fun n => n.nid == i)

/-- Vector stored under id `i` (empty when absent). -/
def vecOf (s : HNSWIndex) (i : Nat) : List Int :=
  match s.find? i with
  | some n => n.vec
  | none => []

/-- Distance from the query to the vector stored under id `i`. -/
def distTo (s : HNSWIndex) (q : List Int) (i : Nat) : Int :=
  sqDist q (s.vecOf i)

/-- Neighbor list of id `i` at layer `l`. -/
def nbrsAt (s : HNSWIndex) (i l : Nat) : List Nat :=
  match s.find? i with
  | some n => n.nbrs.getD l []
  | none => []

/-- Live neighbors of id `i` at layer `l` (tombstoned nodes are never
traversal destinations, spec §4.3 search step 3). -/
def liveNbrs (s : HNSWIndex) (i l : Nat) : List Nat :=
  (s.nbrsAt i l).filter (fun j => s.isLive j)

/-- Well-formedness: internal ids are unique (spec §3 InternalId). -/
def WF (s : HNSWIndex) : Prop :=
  s.allIds.Nodup

/-- Best (closest to `q`, ties by smallest id) element of a candidate id
list, `none` when the list is empty. -/
def bestNbr (s : HNSWIndex) (q : List Int) (cands : List Nat) : Option Nat :=
  match cands with
  | [] => none
  | c :: rest => some (rest.foldl (fun b j =>
      if s.distTo q j < s.distTo q b ∨ (s.distTo q j = s.distTo q b ∧ j < b) then j else b) c)

/-- Modelled from the spec: the single-best greedy walk at one layer (§4.3
construction step 3 / search step 1) — repeatedly move to the best-distance
live neighbor while it improves; `fuel` bounds the strictly-improving walk. -/
def greedyWalk (s : HNSWIndex) (q : List Int) (l : Nat) : Nat → Nat → Nat
  | 0, c => c
  | fuel + 1, c =>
    match bestNbr s q (s.liveNbrs c l) with
    | none => c
    | some b => if s.distTo q b < s.distTo q c then greedyWalk s q l fuel b else c

/-- State of the bounded beam search: visited ids, the candidate frontier,
and the result set of size at most `ef` (spec §4.3 search step 2). -/
structure BeamState where
  visited : List Nat
  frontier : List (Nat × Int)
  results : List (Nat × Int)
deriving DecidableEq, Repr

/-- Minimum of a pair list under the comparator contract. -/
def minPair (ps : List (Nat × Int)) : Option (Nat × Int) :=
  ps.foldl (fun acc p =>
    match acc with
    | none => some p
    | some b => if pairLE b p then some b else some p) none

/-- Maximum of a pair list under the comparator contract. -/
def maxPair (ps : List (Nat × Int)) : Option (Nat × Int) :=
  ps.foldl (fun acc p =>
    match acc with
    | none => some p
    | some b => if pairLE b p then some p else some b) none

/-- Whether a candidate at distance `d` is accepted while the result set
holds `rs` (result set not yet full, or `d` beats the farthest result). -/
def acceptNew (ef : Nat) (rs : List (Nat × Int)) (d : Int) : Bool :=
  decide (rs.length < ef) ||
    (match maxPair rs with
     | some w => decide (d < w.2)
     | none => true)

/-- Insert an accepted pair into the bounded result set, evicting the
farthest result when the set is full. -/
def insertResult (ef : Nat) (rs : List (Nat × Int)) (p : Nat × Int) : List (Nat × Int) :=
  if rs.length < ef then rs ++ [p]
  else
    match maxPair rs with
    | some w => if p.2 < w.2 then (rs.erase w) ++ [p] else rs
    | none => rs ++ [p]

/-- Expand the popped candidate `cid`: visit each live, not-yet-visited
neighbor and fold it into the frontier and the bounded result set. -/
def beamExpand (s : HNSWIndex) (q : List Int) (l ef cid : Nat) (st : BeamState) : BeamState :=
  ((s.liveNbrs cid l).filter (fun j => !(st.visited.contains j))).foldl
    (fun acc j =>
      if acceptNew ef acc.results (s.distTo q j) then
        { visited := acc.visited ++ [j],
          frontier := acc.frontier ++ [(j, s.distTo q j)],
          results := insertResult ef acc.results (j, s.distTo q j) }
      else { acc with visited := acc.visited ++ [j] })
    st

/-- One beam-search step: pop the closest frontier candidate; stop when the
result set is full and the candidate is farther than the farthest result. -/
def beamStep (s : HNSWIndex) (q : List Int) (l ef : Nat) (st : BeamState) : Option BeamState :=
  match minPair st.frontier with
  | none => none
  | some c =>
    match maxPair st.results with
    | some w =>
      if ef ≤ st.results.length ∧ w.2 < c.2 then none
      else some (beamExpand s q l ef c.1 { st with frontier := st.frontier.erase c })
    | none => some (beamExpand s q l ef c.1 { st with frontier := st.frontier.erase c })

/-- Run beam-search steps until the stopping rule fires or `fuel` runs out
(each step pops one frontier entry, and at most one frontier entry is ever
pushed per live node, so `size + 2` fuel always suffices). -/
def beamLoop (s : HNSWIndex) (q : List Int) (l ef : Nat) : Nat → BeamState → BeamState
  | 0, st => st
  | fuel + 1, st =>
    match beamStep s q l ef st with
    | none => st
    | some st' => beamLoop s q l ef fuel st'

/-- Modelled from the spec: the bounded beam search at one layer (§4.3),
seeded from the current best node `e`. -/
def searchLayer (s : HNSWIndex) (q : List Int) (l ef e : Nat) : List (Nat × Int) :=
  (beamLoop s q l ef (s.size + 2)
    { visited := [e], frontier := [(e, s.distTo q e)], results := [(e, s.distTo q e)] }).results

/-- The layers `top, top - 1, …, lo` in descending order (empty when
`lo > top`). -/
def layersDown (top lo : Nat) : List Nat :=
  (List.range' lo (top + 1 - lo)).reverse

/-- Greedy descent through the given layers, carrying the current best. -/
def descendLoop (s : HNSWIndex) (q : List Int) (layers : List Nat) (e : Nat) : Nat :=
  layers.foldl (fun c l => greedyWalk s q l (s.size + 1) c) e

/-- Restrict one node's neighbor lists to the given live id set. -/
def stripNode (ids : List Nat) (n : HNSWNode) : HNSWNode :=
  { n with nbrs := n.nbrs.map (fun ls => ls.filter (fun j => decide (j ∈ ids))) }

/-- Restrict the index to its live sub-structure: drop tombstoned nodes,
drop edges into tombstoned nodes, and clear a tombstoned entry point.
Search is a function of exactly this sub-structure, and `save` persists
exactly this sub-structure. -/
def strip (s : HNSWIndex) : HNSWIndex :=
  { dim := s.dim, M := s.M, efC := s.efC,
    nodes := s.liveNodes.map (stripNode s.liveIds),
    entry :=
      match s.entry with
      | some e => if e ∈ s.liveIds then some e else none
      | none => none }

/-- Modelled from the spec: the search pipeline on the live sub-structure —
greedy descent above layer 0, bounded beam search at layer 0, then the `k`
closest results ascending by distance with ties by ascending id (§4.3
search steps 1–3); an index with zero live vectors yields the empty
sequence. -/
def searchCore (t : HNSWIndex) (q : List Int) (k ef : Nat) : List (Nat × Int) :=
  match t.entry with
  | none => []
  | some e =>
    match t.find? e with
    | none => []
    | some en =>
      let e1 := descendLoop t q (layersDown en.topLayer 1) e
      sortTake k (dedupKeys (searchLayer t q 0 ef e1))

/-- Modelled from the spec: `search(query, k, ef)` (§4.1, §4.3) — validate
the query dimensionality, `k ≥ 1`, and `ef ≥ k`, then run the search
pipeline over the live sub-structure. -/
def search (s : HNSWIndex) (q : List Int) (k ef : Nat) :
    Except IndexError (List (Nat × Int)) :=
  if q.length ≠ s.dim then .error .DimensionMismatch
  else if k = 0 then .error .InvalidArgument
  else if ef < k then .error .InvalidArgument
  else .ok (searchCore (strip s) q k ef)

end HNSWIndex

/-- Candidate-ordering relation for the neighbor-selection heuristic:
ascending distance to the target vector `t`, ties by ascending id. -/
def selLE (t : List Int) (a b : Nat × List Int) : Prop :=
  sqDist t a.2 < sqDist t b.2 ∨ (sqDist t a.2 = sqDist t b.2 ∧ a.1 ≤ b.1)

instance (t : List Int) : DecidableRel (selLE t) := fun a b =>
  inferInstanceAs (Decidable (sqDist t a.2 < sqDist t b.2 ∨ (sqDist t a.2 = sqDist t b.2 ∧ a.1 ≤ b.1)))

/-- Candidates in ascending distance to the target (the consideration order
of the heuristic, spec §4.3). -/
def selSort (t : List Int) (cs : List (Nat × List Int)) : List (Nat × List Int) :=
  List.insertionSort (selLE t) cs

/-- A candidate with vector `cvec` at distance `cd` from the target is kept
only when no already-selected neighbor is closer to it than it is to the
target (spec §4.3 neighbor-selection heuristic). -/
def notDominated (sel : List (Nat × List Int)) (cvec : List Int) (cd : Int) : Bool :=
  sel.all (fun p => !(decide (sqDist p.2 cvec < cd)))

/-- First pass of the heuristic over the distance-sorted candidates: keep a
candidate while fewer than `Mcap` are selected and it is not dominated;
everything else goes to the rejected pool, in order. -/
def phase1Go (t : List Int) (Mcap : Nat) (sel rej : List (Nat × List Int)) :
    List (Nat × List Int) → List (Nat × List Int) × List (Nat × List Int)
  | [] => (sel, rej)
  | c :: rest =>
    if sel.length < Mcap ∧ notDominated sel c.2 (sqDist t c.2) = true then
      phase1Go t Mcap (sel ++ [c]) rej rest
    else
      phase1Go t Mcap sel (rej ++ [c]) rest

/-- Modelled from the spec: the neighbor-selection heuristic (§4.3) — keep
each candidate in ascending distance order exactly when it is not dominated,
then fill remaining slots with the next-closest rejected candidates
regardless of dominance, never exceeding `Mcap`. -/
def selectNeighbors (t : List Int) (cands : List (Nat × List Int)) (Mcap : Nat) :
    List (Nat × List Int) :=
  let z := phase1Go t Mcap [] [] (selSort t cands)
  z.1 ++ z.2.take (Mcap - z.1.length)

namespace HNSWIndex

/-- Degree cap per layer: `2M` at layer 0, `M` above (spec §3, §4.3). -/
def capAt (M l : Nat) : Nat :=
  if l = 0 then 2 * M else M

/-- Attach stored vectors to beam-search results, forming the candidate pool
of the neighbor-selection heuristic. -/
def candPairs (s : HNSWIndex) (W : List (Nat × Int)) : List (Nat × List Int) :=
  W.map (fun p => (p.1, s.vecOf p.1))

/-- One construction layer (spec §4.3 step 4): beam-search with width `efC`
seeded from the carried best node, select up to the cap via the heuristic,
record the selection, and carry the closest found node downward. -/
def buildStep (s : HNSWIndex) (v : List Int) (acc : Nat × List (Nat × List Nat)) (l : Nat) :
    Nat × List (Nat × List Nat) :=
  let W := searchLayer s v l s.efC acc.1
  let sel := (selectNeighbors v (candPairs s W) (capAt s.M l)).map Prod.fst
  let e2 :=
    match minPair W with
    | some c => c.1
    | none => acc.1
  (e2, acc.2 ++ [(l, sel)])

/-- Run the construction layers from `lmax` down to 0. -/
def buildLayers (s : HNSWIndex) (v : List Int) (start lmax : Nat) :
    Nat × List (Nat × List Nat) :=
  (layersDown lmax 0).foldl (buildStep s v) (start, [])

/-- Selected neighbor ids recorded for layer `l` (empty if none). -/
def selAt (sels : List (Nat × List Nat)) (l : Nat) : List Nat :=
  ((sels.find? (fun p => p.1 == l)).map Prod.snd).getD []

/-- Per-layer neighbor lists of the inserted node, layers 0 through `level`. -/
def newNodeNbrs (sels : List (Nat × List Nat)) (level : Nat) : List (List Nat) :=
  (List.range (level + 1)).map (fun l => selAt sels l)

/-- Vector lookup that also resolves the node being inserted. -/
def vecOfWith (s : HNSWIndex) (i : Nat) (v : List Int) (j : Nat) : List Int :=
  if j = i then v else s.vecOf j

/-- Reciprocal edge insertion at layer `l` (spec §4.3 step 4): append the new
id to the neighbor's list and, if the cap is now exceeded, re-apply the
neighbor-selection heuristic to prune back to the cap. -/
def connectOne (M i : Nat) (vOf : Nat → List Int) (l : Nat) (n : HNSWNode) : HNSWNode :=
  let lst := (n.nbrs.getD l []) ++ [i]
  let lst2 :=
    if lst.length ≤ capAt M l then lst
    else (selectNeighbors n.vec (lst.map (fun j => (j, vOf j))) (capAt M l)).map Prod.fst
  { n with nbrs := n.nbrs.set l lst2 }

/-- Apply every reciprocal edge insertion that concerns node `n`. -/
def connectNode (M i : Nat) (vOf : Nat → List Int) (sels : List (Nat × List Nat))
    (n : HNSWNode) : HNSWNode :=
  sels.foldl (fun m p => if m.nid ∈ p.2 then connectOne M i vOf p.1 m else m) n

/-- Entry node, provided it is live. -/
def liveEntryNode (s : HNSWIndex) : Option HNSWNode :=
  match s.entry with
  | some e =>
    match s.find? e with
    | some n => if n.deleted then none else some n
    | none => none
  | none => none

/-- Modelled from the spec: HNSW insertion body (§4.3 construction steps
4–5), given the per-layer neighbor selections `sels`: connect the new node
bidirectionally (cap-exceeding neighbors re-pruned by `connectNode`), and
promote the entry point when `level` exceeds the current top layer. -/
def addFull (s : HNSWIndex) (level i : Nat) (v : List Int) (top : Nat)
    (sels : List (Nat × List Nat)) : HNSWIndex :=
  { s with
    nodes := (s.nodes.map (connectNode s.M i (vecOfWith s i v) sels)) ++
      [⟨i, v, level, newNodeNbrs sels level, false⟩],
    entry := if top < level then some i else s.entry }

/-- Dispatch of the insertion (spec §4.3 steps 2–5): an empty index receives
the node as entry point, otherwise descend, build the per-layer selections,
and connect. -/
def addCore (s : HNSWIndex) (level i : Nat) (v : List Int) : HNSWIndex :=
  match s.liveEntryNode with
  | none =>
    { s with nodes := s.nodes ++ [⟨i, v, level, List.replicate (level + 1) [], false⟩],
             entry := some i }
  | some en =>
    addFull s level i v en.topLayer
      (buildLayers s v (descendLoop s v (layersDown en.topLayer (level + 1)) en.nid)
        (min level en.topLayer)).2

/-- Modelled from the spec: `add` (§4.1, §4.3) in result-and-state form —
validate dimensionality, then id freshness, then run the insertion. -/
def addR (s : HNSWIndex) (level i : Nat) (v : List Int) :
    Except IndexError Unit × HNSWIndex :=
  if v.length ≠ s.dim then (.error .DimensionMismatch, s)
  else if i ∈ s.allIds then (.error .DuplicateId, s)
  else (.ok (), addCore s level i v)

/-- `add` as a fallible state transformer. -/
def add (s : HNSWIndex) (level i : Nat) (v : List Int) :
    Except IndexError HNSWIndex :=
  match addR s level i v with
  | (.ok _, s') => .ok s'
  | (.error e, _) => .error e

/-- Tombstone the first live node carrying id `i`; `none` when no live node
carries it. -/
def markFirstNode : List HNSWNode → Nat → Option (List HNSWNode)
  | [], _ => none
  | n :: rest, i =>
    if n.nid = i ∧ n.deleted = false then some ({ n with deleted := true } :: rest)
    else match markFirstNode rest i with
      | some rest' => some (n :: rest')
      | none => none

/-- Replacement entry point after the entry node is tombstoned: a live node
of maximal top layer (the highest non-empty layer, spec §3 EntryPoint). -/
def pickEntry (ns : List HNSWNode) : Option Nat :=
  ((ns.filter (fun n => !n.deleted)).foldl (fun acc n =>
    match acc with
    | none => some n
    | some b => if b.topLayer < n.topLayer then some n else some b) none).map HNSWNode.nid

/-- Modelled from the spec: `remove` (§4.1, §4.3) in result-and-state form —
`NotFound` when the id is not live, otherwise tombstone the node (edges are
not physically unlinked) and re-seat the entry point if it was removed. -/
def removeR (s : HNSWIndex) (i : Nat) : Except IndexError Unit × HNSWIndex :=
  match markFirstNode s.nodes i with
  | none => (.error .NotFound, s)
  | some ns =>
    if s.entry = some i then (.ok (), { s with nodes := ns, entry := pickEntry ns })
    else (.ok (), { s with nodes := ns })

/-- `remove` as a fallible state transformer. -/
def remove (s : HNSWIndex) (i : Nat) : Except IndexError HNSWIndex :=
  match removeR s i with
  | (.ok _, s') => .ok s'
  | (.error e, _) => .error e

end HNSWIndex

/-- Modelled from the spec: one persisted node record of the HNSW stream
(§4.4): internal id, raw vector, top layer, per-layer neighbor ids. -/
structure NodeRec where
  rid : Nat
  rvec : List Int
  rtop : Nat
  rnbrs : List (List Nat)
deriving DecidableEq, Repr

/-- Modelled from the spec: the self-describing persistence stream for the
HNSW index (§4.4, §6): versioned header, parameters, declared live-vector
count, node records, and the entry-point id. -/
structure SavedHNSW where
  version : Nat
  variantTag : Nat
  dim : Nat
  metricTag : Nat
  M : Nat
  efC : Nat
  declaredCount : Nat
  records : List NodeRec
  entryId : Option Nat
deriving DecidableEq, Repr

namespace HNSWIndex

/-- Modelled from the spec: `save` (§4.4) — persist the live sub-structure:
header, one record per live node (edges into tombstoned nodes omitted), and
the entry-point id. -/
def save (s : HNSWIndex) : SavedHNSW :=
  { version := 1, variantTag := 1, dim := s.dim, metricTag := 0, M := s.M, efC := s.efC,
    declaredCount := (strip s).nodes.length,
    records := (strip s).nodes.map (fun n => ⟨n.nid, n.vec, n.topLayer, n.nbrs⟩),
    entryId := (strip s).entry }

/-- Internal ids present in the stream's vector set. -/
def recIds (st : SavedHNSW) : List Nat :=
  st.records.map NodeRec.rid

/-- Every neighbor id referenced by the stream is present in its vector set. -/
def refsOk (st : SavedHNSW) : Bool :=
  st.records.all (fun r => r.rnbrs.all (fun ls => ls.all (fun j => decide (j ∈ recIds st))))

/-- The declared entry point, when present, is in the stream's vector set. -/
def entryOk (st : SavedHNSW) : Bool :=
  match st.entryId with
  | some e => decide (e ∈ recIds st)
  | none => true

/-- Modelled from the spec: `load` (§4.4) — reject with `CorruptIndex` any
stream with an unrecognized version tag, a wrong variant tag, a declared
count differing from the number of records, a neighbor reference outside
the vector set, or a dangling entry point; otherwise rebuild a fresh index. -/
def load (st : SavedHNSW) : Except IndexError HNSWIndex :=
  if st.version ≠ 1 then .error .CorruptIndex
  else if st.variantTag ≠ 1 then .error .CorruptIndex
  else if st.declaredCount ≠ st.records.length then .error .CorruptIndex
  else if refsOk st = true ∧ entryOk st = true then
    .ok { dim := st.dim, M := st.M, efC := st.efC,
          nodes := st.records.map (fun r => ⟨r.rid, r.rvec, r.rtop, r.rnbrs, false⟩),
          entry := st.entryId }
  else .error .CorruptIndex

end HNSWIndex

/-- The closed set of index variants (spec §4.1, §9: the variant set is
closed and known). -/
inductive IndexVariant
  | bruteForce
  | hnsw
deriving DecidableEq, Repr

/-- The BaseIndex capability set {add, search, remove, size, save, load}
(spec §4.1, §6), over a state type `σ` and a persistence stream type `τ`;
`searchFn` takes the query, `k`, and the optional query-time `ef` knob. -/
structure BaseIndexOps (σ τ : Type) where
  addFn : σ → Nat → List Int → Except IndexError σ
  searchFn : σ → List Int → Nat → Option Nat → Except IndexError (List (Nat × Int))
  removeFn : σ → Nat → Except IndexError σ
  sizeFn : σ → Nat
  saveFn : σ → τ
  loadFn : τ → Except IndexError σ

/-- The brute-force variant's implementation of the capability set. -/
def bruteForceOps : BaseIndexOps BruteForceIndex SavedBF :=
  { addFn := fun s i v => s.add i v,
    searchFn := fun s q k _ => s.search q k,
    removeFn := fun s i => s.remove i,
    sizeFn := fun s => s.size,
    saveFn := fun s => s.save,
    loadFn := BruteForceIndex.load }

/-- HNSW index state together with its explicit seedable level stream (spec
§9: the random level generator is threaded through construction as
configuration, not ambient global state). -/
structure HNSWHandle where
  idx : HNSWIndex
  levels : List Nat
deriving DecidableEq, Repr

/-- The HNSW variant's implementation of the capability set: `add` consumes
the next pre-drawn level, `search` defaults the `ef` knob to `k`. -/
def hnswOps : BaseIndexOps HNSWHandle SavedHNSW :=
  { addFn := fun h i v => (h.idx.add (h.levels.headD 0) i v).map (fun s => ⟨s, h.levels.tail⟩),
    searchFn := fun h q k ef => h.idx.search q k (ef.getD k),
    removeFn := fun h i => (h.idx.remove i).map (fun s => ⟨s, h.levels⟩),
    sizeFn := fun h => h.idx.size,
    saveFn := fun h => h.idx.save,
    loadFn := fun st => (HNSWIndex.load st).map (fun s => ⟨s, []⟩) }

/-- State type of each variant. -/
def variantState : IndexVariant → Type
  | .bruteForce => BruteForceIndex
  | .hnsw => HNSWHandle

/-- Persistence stream type of each variant. -/
def variantStream : IndexVariant → Type
  | .bruteForce => SavedBF
  | .hnsw => SavedHNSW

/-- The implementation of the capability set carried by each variant. -/
def variantOps : (v : IndexVariant) → BaseIndexOps (variantState v) (variantStream v)
  | .bruteForce => bruteForceOps
  | .hnsw => hnswOps

/-- A statement of a Python module body, at the granularity the two
`__init__.py` files need: docstrings, string/string-list assignments,
`from MODULE import NAME` (module as dotted-path components), and own
class/function definitions. -/
inductive PyStmt
  | docstring (s : String)
  | assignStr (name : String) (value : String)
  | assignStrList (name : String) (value : List String)
  | fromImport (modulePath : List String) (importedName : String)
  | classDef (name : String)
  | funDef (name : String)
deriving DecidableEq, Repr

/-- The module body of `src/db/__init__.py`, statement for statement. -/
def dbInitBody : List PyStmt :=
  [ .docstring "Vector Database - A Python vector database implementation from scratch.",
    .assignStr "__version__" "0.1.0",
    .fromImport ["vec_db", "core"] "VectorDB",
    .assignStrList "__all__" ["VectorDB"] ]

/-- The module body of `src/db/indexes/__init__.py`, statement for
statement. -/
def indexesInitBody : List PyStmt :=
  [ .docstring "Indexing strategies for vector similarity search.",
    .fromImport ["vec_db", "indexes", "base_index"] "BaseIndex",
    .fromImport ["vec_db", "indexes", "brute_force_index"] "BruteForceIndex",
    .fromImport ["vec_db", "indexes", "hnsw_index"] "HNSWIndex",
    .assignStrList "__all__" ["BaseIndex", "BruteForceIndex", "HNSWIndex"] ]

/-- The `__all__` export list of `src/db/indexes/__init__.py` (source,
lines 5–9). -/
def indexesAllList : List String :=
  ["BaseIndex", "BruteForceIndex", "HNSWIndex"]

/-- The `__all__` export list of `src/db/__init__.py` (source, lines 10–12). -/
def dbAllList : List String :=
  ["VectorDB"]

/-- Whether a module body defines any class or function of its own. -/
def definesOwn (b : List PyStmt) : Bool :=
  b.any (fun st =>
    match st with
    | .classDef _ => true
    | .funDef _ => true
    | _ => false)

/-- The `(modulePath, name)` pairs a module body imports. -/
def importsOf (b : List PyStmt) : List (List String × String) :=
  b.foldr (fun st acc =>
    match st with
    | .fromImport m n => (m, n) :: acc
    | _ => acc) []

/-- The names a module body lists in `__all__` (last assignment wins;
these bodies assign it once). -/
def exportsOf (b : List PyStmt) : List String :=
  b.foldr (fun st acc =>
    match st with
    | .assignStrList nm v => if nm = "__all__" then v ++ acc else acc
    | _ => acc) []

/-- Evaluate a module body in an environment telling which module paths are
importable: the first failing `from … import …` raises ImportError. -/
def evalModule (importable : List String → Bool) : List PyStmt → Except String Unit
  | [] => .ok ()
  | .fromImport m _ :: rest =>
    if importable m then evalModule importable rest else .error "ImportError"
  | _ :: rest => evalModule importable rest

/-- A mutating operation on the brute-force index (searches do not mutate,
so "any subsequent search" quantifies over these sequences). -/
inductive BFOp
  | addOp (i : Nat) (v : List Int)
  | removeOp (i : Nat)
deriving DecidableEq, Repr

/-- Apply one operation, keeping the prior state on failure. -/
def BruteForceIndex.applyOp (s : BruteForceIndex) : BFOp → BruteForceIndex
  | .addOp i v => (s.addR i v).2
  | .removeOp i => (s.removeR i).2

/-- Apply a sequence of operations. -/
def BruteForceIndex.applyOps (s : BruteForceIndex) (ops : List BFOp) : BruteForceIndex :=
  ops.foldl BruteForceIndex.applyOp s

/-- A mutating operation on the HNSW index (the insertion carries its drawn
top layer explicitly). -/
inductive HOp
  | addOp (level i : Nat) (v : List Int)
  | removeOp (i : Nat)
deriving DecidableEq, Repr

/-- Apply one operation, keeping the prior state on failure. -/
def HNSWIndex.applyOp (s : HNSWIndex) : HOp → HNSWIndex
  | .addOp level i v => (s.addR level i v).2
  | .removeOp i => (s.removeR i).2

/-- Apply a sequence of operations. -/
def HNSWIndex.applyOps (s : HNSWIndex) (ops : List HOp) : HNSWIndex :=
  ops.foldl HNSWIndex.applyOp s

namespace BruteForceIndex

theorem isLive_iff (s : BruteForceIndex) (i : Nat) :
    s.isLive i = true ↔ ∃ e ∈ s.entries, e.eid = i ∧ e.deleted = false := by
  unfold isLive liveEntries
  rw [List.any_eq_true]
  constructor
  · rintro ⟨e, he, hbeq⟩
    obtain ⟨hmem, hdel⟩ := List.mem_filter.mp he
    exact ⟨e, hmem, by simpa using hbeq, by simpa using hdel⟩
  · rintro ⟨e, he, heq, hdel⟩
    exact ⟨e, List.mem_filter.mpr ⟨he, by simp [hdel]⟩, by simp [heq]⟩

theorem markFirst_eq_none_iff (es : List BFEntry) (i : Nat) :
    markFirst es i = none ↔ ∀ e ∈ es, ¬(e.eid = i ∧ e.deleted = false) := by
  induction es with
  | nil => simp [markFirst]
  | cons e rest ih =>
    by_cases h : e.eid = i ∧ e.deleted = false
    · simp [markFirst, if_pos h, h]
    · rw [markFirst, if_neg h]
      cases hm : markFirst rest i with
      | some rest' =>
        simp only [List.mem_cons]
        constructor
        · intro hc; exact absurd hc (by simp)
        · intro hall
          have : markFirst rest i = none := ih.mpr (fun x hx => hall x (Or.inr hx))
          rw [hm] at this; exact absurd this (by simp)
      | none =>
        simp only [List.mem_cons]
        constructor
        · intro _ x hx
          rcases hx with rfl | hx
          · exact h
          · exact ih.mp hm x hx
        · intro _; trivial

theorem markFirst_some_decomp (es : List BFEntry) (i : Nat) (es' : List BFEntry)
    (h : markFirst es i = some es') :
    ∃ pre e post, es = pre ++ e :: post ∧ e.eid = i ∧ e.deleted = false ∧
      es' = pre ++ { e with deleted := true } :: post := by
  induction es generalizing es' with
  | nil => simp [markFirst] at h
  | cons e rest ih =>
    by_cases hc : e.eid = i ∧ e.deleted = false
    · rw [markFirst, if_pos hc] at h
      exact ⟨[], e, rest, by simp, hc.1, hc.2, by simpa using h.symm⟩
    · rw [markFirst, if_neg hc] at h
      cases hm : markFirst rest i with
      | some rest' =>
        rw [hm] at h
        obtain ⟨pre, x, post, hsplit, hid, hdel, hres⟩ := ih rest' hm
        refine ⟨e :: pre, x, post, by simp [hsplit], hid, hdel, ?_⟩
        cases h
        simp [hres]
      | none => rw [hm] at h; cases h

end BruteForceIndex

namespace BruteForceIndex

theorem remove_not_live (s : BruteForceIndex) (i : Nat) (h : s.isLive i = false) :
    s.remove i = .error .NotFound := by
  have hnone : markFirst s.entries i = none := by
    rw [markFirst_eq_none_iff]
    intro e he hc
    have : s.isLive i = true := (isLive_iff s i).mpr ⟨e, he, hc.1, hc.2⟩
    rw [this] at h
    exact Bool.true_eq_false.mp h
  simp [remove, removeR, hnone]

theorem markFirst_of_live (s : BruteForceIndex) (i : Nat) (h : s.isLive i = true) :
    ∃ es', markFirst s.entries i = some es' := by
  cases hm : markFirst s.entries i with
  | none =>
    obtain ⟨e, he, h1, h2⟩ := (isLive_iff s i).mp h
    exact absurd ⟨h1, h2⟩ ((markFirst_eq_none_iff s.entries i).mp hm e he)
  | some es' => exact ⟨es', rfl⟩

theorem size_markFirst (s : BruteForceIndex) (i : Nat) (es' : List BFEntry)
    (h : markFirst s.entries i = some es') :
    ({ s with entries := es' } : BruteForceIndex).size + 1 = s.size := by
  obtain ⟨pre, e, post, hsplit, _, hdel, hres⟩ := markFirst_some_decomp _ _ _ h
  show (es'.filter (fun e => !e.deleted)).length + 1 = (s.entries.filter (fun e => !e.deleted)).length
  rw [hres, hsplit, List.filter_append, List.filter_append, List.filter_cons, List.filter_cons]
  simp only [hdel, Bool.not_false, Bool.not_true, if_pos, if_neg, List.length_append]
  simp [List.length_cons]
  omega

theorem allIds_markFirst (s : BruteForceIndex) (i : Nat) (es' : List BFEntry)
    (h : markFirst s.entries i = some es') :
    ({ s with entries := es' } : BruteForceIndex).allIds = s.allIds := by
  obtain ⟨pre, e, post, hsplit, _, _, hres⟩ := markFirst_some_decomp _ _ _ h
  show es'.map BFEntry.eid = s.entries.map BFEntry.eid
  rw [hres, hsplit]
  simp

theorem isLive_markFirst_self (s : BruteForceIndex) (i : Nat) (es' : List BFEntry)
    (hWF : s.WF) (h : markFirst s.entries i = some es') :
    ({ s with entries := es' } : BruteForceIndex).isLive i = false := by
  obtain ⟨pre, e, post, hsplit, hid, _, hres⟩ := markFirst_some_decomp _ _ _ h
  have hnd := hWF
  unfold WF allIds at hnd
  rw [hsplit, List.map_append, List.map_cons, List.nodup_append] at hnd
  obtain ⟨_, hnd2, hdisj⟩ := hnd
  by_contra hc
  have hc' : ({ s with entries := es' } : BruteForceIndex).isLive i = true := by
    cases hl : ({ s with entries := es' } : BruteForceIndex).isLive i
    · exact absurd hl hc
    · rfl
  obtain ⟨x, hx, hxid, hxdel⟩ := (isLive_iff _ i).mp hc'
  have hx' : x ∈ es' := hx
  rw [hres] at hx'
  rcases List.mem_append.mp hx' with hxpre | hxmid
  · exact hdisj (List.mem_map.mpr ⟨x, hxpre, hid ▸ hxid⟩) (List.mem_cons_self _ _)
  · rcases List.mem_cons.mp hxmid with rfl | hxpost
    · simp at hxdel
    · have : e.eid ∉ post.map BFEntry.eid := (List.nodup_cons.mp hnd2).1
      exact this (List.mem_map.mpr ⟨x, hxpost, by rw [hxid, hid]⟩)

theorem search_mem_live (s : BruteForceIndex) (q : List Int) (k : Nat)
    (r : List (Nat × Int)) (h : s.search q k = .ok r) :
    ∀ p ∈ r, s.isLive p.1 = true := by
  unfold search at h
  split_ifs at h
  intro p hp
  have hr : r = sortTake k (livePairs s q) := by
    cases h
    rfl
  have hmem : p ∈ livePairs s q := sortTake_subset _ _ p (hr ▸ hp)
  obtain ⟨e, he, hpe⟩ := List.mem_map.mp hmem
  obtain ⟨hee, hdel⟩ := List.mem_filter.mp he
  refine (isLive_iff s p.1).mpr ⟨e, hee, ?_, by simpa using hdel⟩
  rw [← hpe]

/-- A tombstoned id: present in the arena but not live. -/
def tomb (s : BruteForceIndex) (i : Nat) : Prop :=
  i ∈ s.allIds ∧ s.isLive i = false

theorem bool_eq_true_of_ne_false {b : Bool} (h : ¬ b = false) : b = true := by
  cases b
  · exact absurd rfl h
  · rfl

theorem allIds_append (s : BruteForceIndex) (e : BFEntry) :
    ({ s with entries := s.entries ++ [e] } : BruteForceIndex).allIds = s.allIds ++ [e.eid] := by
  simp [allIds]

theorem tomb_applyOp (s : BruteForceIndex) (op : BFOp) (i : Nat)
    (h : s.tomb i) (hWF : s.WF) : (s.applyOp op).tomb i ∧ (s.applyOp op).WF := by
  obtain ⟨hin, hnl⟩ := h
  cases op with
  | addOp j v =>
    show ((s.addR j v).2.tomb i ∧ (s.addR j v).2.WF)
    unfold addR
    split_ifs with h1 h2
    · exact ⟨⟨hin, hnl⟩, hWF⟩
    · exact ⟨⟨hin, hnl⟩, hWF⟩
    · refine ⟨⟨?_, ?_⟩, ?_⟩
      · show i ∈ ({ s with entries := s.entries ++ [⟨j, v, false⟩] } : BruteForceIndex).allIds
        rw [allIds_append]
        exact List.mem_append.mpr (Or.inl hin)
      · show ({ s with entries := s.entries ++ [⟨j, v, false⟩] } : BruteForceIndex).isLive i = false
        by_contra hc
        obtain ⟨x, hx, hxid, hxdel⟩ := (isLive_iff _ i).mp (bool_eq_true_of_ne_false hc)
        rcases List.mem_append.mp hx with hold | hnew
        · have hlv : s.isLive i = true := (isLive_iff s i).mpr ⟨x, hold, hxid, hxdel⟩
          rw [hlv] at hnl
          exact Bool.true_eq_false.mp hnl
        · have hxj : x = ⟨j, v, false⟩ := by simpa using hnew
          have hij : i = j := by rw [← hxid, hxj]
          exact h2 (hij ▸ hin)
      · show ({ s with entries := s.entries ++ [⟨j, v, false⟩] } : BruteForceIndex).WF
        unfold WF
        rw [allIds_append, List.nodup_append]
        refine ⟨hWF, by simp, ?_⟩
        intro a ha hb
        have : a = j := by simpa using hb
        exact h2 (this ▸ ha)
  | removeOp j =>
    show ((s.removeR j).2.tomb i ∧ (s.removeR j).2.WF)
    unfold removeR
    cases hm : markFirst s.entries j with
    | none => exact ⟨⟨hin, hnl⟩, hWF⟩
    | some es' =>
      obtain ⟨pre, e, post, hsplit, hid, hdel, hres⟩ := markFirst_some_decomp _ _ _ hm
      have hids : ({ s with entries := es' } : BruteForceIndex).allIds = s.allIds :=
        allIds_markFirst s j es' hm
      have hWF' : ({ s with entries := es' } : BruteForceIndex).WF := by
        unfold WF
        rw [hids]
        exact hWF
      have hlive : ({ s with entries := es' } : BruteForceIndex).isLive i = false := by
        by_contra hc
        obtain ⟨x, hx, hxid, hxdel⟩ := (isLive_iff _ i).mp (bool_eq_true_of_ne_false hc)
        have hx' : x ∈ es' := hx
        rw [hres] at hx'
        have hxold : x ∈ s.entries → False := by
          intro hmemold
          have hlv : s.isLive i = true := (isLive_iff s i).mpr ⟨x, hmemold, hxid, hxdel⟩
          rw [hlv] at hnl
          exact Bool.true_eq_false.mp hnl
        rcases List.mem_append.mp hx' with hxpre | hxmid
        · exact hxold (hsplit ▸ List.mem_append.mpr (Or.inl hxpre))
        · rcases List.mem_cons.mp hxmid with rfl | hxpost
          · simp at hxdel
          · exact hxold (hsplit ▸ List.mem_append.mpr (Or.inr (List.mem_cons_of_mem _ hxpost)))
      exact ⟨⟨hids ▸ hin, hlive⟩, hWF'⟩

theorem tomb_applyOps (s : BruteForceIndex) (ops : List BFOp) (i : Nat)
    (h : s.tomb i) (hWF : s.WF) :
    (s.applyOps ops).tomb i ∧ (s.applyOps ops).WF := by
  induction ops generalizing s with
  | nil => exact ⟨h, hWF⟩
  | cons op rest ih =>
    obtain ⟨h1, h2⟩ := tomb_applyOp s op i h hWF
    exact ih (s.applyOp op) h1 h2

end BruteForceIndex

namespace HNSWIndex

theorem stripNode_nid (ids : List Nat) (n : HNSWNode) : (stripNode ids n).nid = n.nid := rfl

theorem stripNode_deleted (ids : List Nat) (n : HNSWNode) :
    (stripNode ids n).deleted = n.deleted := rfl

theorem strip_allIds (s : HNSWIndex) : (strip s).allIds = s.liveIds := by
  show ((s.liveNodes.map (stripNode s.liveIds)).map HNSWNode.nid) = s.liveNodes.map HNSWNode.nid
  rw [List.map_map]
  rfl

theorem strip_allLive (s : HNSWIndex) : ∀ n ∈ (strip s).nodes, n.deleted = false := by
  intro n hn
  obtain ⟨m, hm, rfl⟩ := List.mem_map.mp hn
  have := (List.mem_filter.mp hm).2
  rw [stripNode_deleted]
  simpa using this

theorem liveNodes_strip (s : HNSWIndex) : (strip s).liveNodes = (strip s).nodes := by
  unfold liveNodes
  apply List.filter_eq_self.mpr
  intro n hn
  rw [strip_allLive s n hn]
  rfl

theorem strip_liveIds (s : HNSWIndex) : (strip s).liveIds = s.liveIds := by
  unfold liveIds
  rw [liveNodes_strip]
  exact strip_allIds s

theorem isLive_iff_mem (s : HNSWIndex) (j : Nat) :
    s.isLive j = true ↔ j ∈ s.liveIds := by
  unfold isLive liveIds
  rw [List.any_eq_true]
  constructor
  · rintro ⟨n, hn, hbeq⟩
    exact List.mem_map.mpr ⟨n, hn, by simpa using hbeq⟩
  · intro hj
    obtain ⟨n, hn, hid⟩ := List.mem_map.mp hj
    exact ⟨n, hn, by simpa using hid⟩

theorem stripNode_idem (ids : List Nat) (n : HNSWNode) :
    stripNode ids (stripNode ids n) = stripNode ids n := by
  cases n with
  | mk nid vec topLayer nbrs deleted =>
    unfold stripNode
    simp only [List.map_map]
    congr 1
    apply List.map_congr_left
    intro ls _
    show (ls.filter (fun j => decide (j ∈ ids))).filter (fun j => decide (j ∈ ids)) =
      ls.filter (fun j => decide (j ∈ ids))
    rw [List.filter_filter]
    apply List.filter_congr
    intro a _
    rw [Bool.and_self]

theorem hnsw_ext {a b : HNSWIndex} (h1 : a.dim = b.dim) (h2 : a.M = b.M)
    (h3 : a.efC = b.efC) (h4 : a.nodes = b.nodes) (h5 : a.entry = b.entry) : a = b := by
  cases a
  cases b
  simp_all

theorem strip_entry_mem (s : HNSWIndex) (e : Nat) (h : (strip s).entry = some e) :
    e ∈ s.liveIds := by
  have h2 : (match s.entry with
      | some x => if x ∈ s.liveIds then some x else none
      | none => none) = some e := h
  cases hse : s.entry with
  | none =>
    rw [hse] at h2
    exact absurd h2 (by simp)
  | some x =>
    rw [hse] at h2
    have h3 : (if x ∈ s.liveIds then some x else none) = some e := h2
    by_cases hx : x ∈ s.liveIds
    · rw [if_pos hx] at h3
      cases h3
      exact hx
    · rw [if_neg hx] at h3
      cases h3

theorem strip_idem (s : HNSWIndex) : strip (strip s) = strip s := by
  have hnodes : (strip (strip s)).nodes = (strip s).nodes := by
    show ((strip s).liveNodes.map (stripNode (strip s).liveIds)) = (strip s).nodes
    rw [liveNodes_strip, strip_liveIds]
    show ((s.liveNodes.map (stripNode s.liveIds)).map (stripNode s.liveIds)) = _
    rw [List.map_map]
    apply List.map_congr_left
    intro n _
    exact stripNode_idem s.liveIds n
  have hentry : (strip (strip s)).entry = (strip s).entry := by
    have hout : (strip (strip s)).entry =
        (match (strip s).entry with
          | some e => if e ∈ s.liveIds then some e else none
          | none => none) := by
      show (match (strip s).entry with
        | some e => if e ∈ (strip s).liveIds then some e else none
        | none => none) = _
      rw [strip_liveIds]
    rw [hout]
    cases hse : (strip s).entry with
    | none => rfl
    | some e =>
      show (if e ∈ s.liveIds then some e else none) = some e
      rw [if_pos (strip_entry_mem s e hse)]
  exact hnsw_ext rfl rfl rfl hnodes hentry

end HNSWIndex

namespace HNSWIndex

theorem recIds_save (s : HNSWIndex) : recIds (save s) = s.liveIds := by
  show ((strip s).nodes.map (fun n => (⟨n.nid, n.vec, n.topLayer, n.nbrs⟩ : NodeRec))).map
      NodeRec.rid = s.liveIds
  rw [List.map_map, ← strip_allIds s]
  rfl

theorem refsOk_save (s : HNSWIndex) : refsOk (save s) = true := by
  rw [refsOk, List.all_eq_true]
  intro r hr
  rw [List.all_eq_true]
  intro ls hls
  rw [List.all_eq_true]
  intro j hj
  have hr' : r ∈ (strip s).nodes.map (fun n => (⟨n.nid, n.vec, n.topLayer, n.nbrs⟩ : NodeRec)) := hr
  obtain ⟨n, hn, rfl⟩ := List.mem_map.mp hr'
  obtain ⟨m, hm, rfl⟩ := List.mem_map.mp hn
  have hls' : ls ∈ m.nbrs.map (fun l0 => l0.filter (fun j => decide (j ∈ s.liveIds))) := hls
  obtain ⟨l0, _, rfl⟩ := List.mem_map.mp hls'
  have hjmem := (List.mem_filter.mp hj).2
  show decide (j ∈ recIds (save s)) = true
  rw [recIds_save]
  exact hjmem

theorem entryOk_save (s : HNSWIndex) : entryOk (save s) = true := by
  unfold entryOk
  cases hse : (save s).entryId with
  | none => rfl
  | some e =>
    have hs : (strip s).entry = some e := hse
    show decide (e ∈ recIds (save s)) = true
    rw [recIds_save]
    exact decide_eq_true (strip_entry_mem s e hs)

theorem load_save_h (s : HNSWIndex) : load (save s) = .ok (strip s) := by
  have hnodes : (save s).records.map (fun r => (⟨r.rid, r.rvec, r.rtop, r.rnbrs, false⟩ : HNSWNode))
      = (strip s).nodes := by
    show ((strip s).nodes.map (fun n => (⟨n.nid, n.vec, n.topLayer, n.nbrs⟩ : NodeRec))).map
        (fun r => (⟨r.rid, r.rvec, r.rtop, r.rnbrs, false⟩ : HNSWNode)) = (strip s).nodes
    rw [List.map_map]
    have hcg : ∀ n ∈ (strip s).nodes,
        ((fun r => (⟨r.rid, r.rvec, r.rtop, r.rnbrs, false⟩ : HNSWNode)) ∘
          (fun n => (⟨n.nid, n.vec, n.topLayer, n.nbrs⟩ : NodeRec))) n = id n := by
      intro n hn
      have hdel := strip_allLive s n hn
      cases n
      simp_all [Function.comp]
    rw [List.map_congr_left hcg, List.map_id]
  unfold load
  rw [if_neg (by simp [save]), if_neg (by simp [save]), if_neg (by simp [save]),
    if_pos ⟨refsOk_save s, entryOk_save s⟩]
  congr 1
  exact hnsw_ext rfl rfl rfl hnodes rfl

theorem search_strip (s : HNSWIndex) (q : List Int) (k ef : Nat) :
    (strip s).search q k ef = s.search q k ef := by
  unfold search
  rw [strip_idem]
  rfl

end HNSWIndex

namespace HNSWIndex

theorem isLive_iff_nodes (s : HNSWIndex) (j : Nat) :
    s.isLive j = true ↔ ∃ n ∈ s.nodes, n.nid = j ∧ n.deleted = false := by
  unfold isLive liveNodes
  rw [List.any_eq_true]
  constructor
  · rintro ⟨n, hn, hbeq⟩
    obtain ⟨hmem, hdel⟩ := List.mem_filter.mp hn
    exact ⟨n, hmem, by simpa using hbeq, by simpa using hdel⟩
  · rintro ⟨n, hn, hid, hdel⟩
    exact ⟨n, List.mem_filter.mpr ⟨hn, by simp [hdel]⟩, by simp [hid]⟩

theorem connectOne_nid (M i : Nat) (vOf : Nat → List Int) (l : Nat) (n : HNSWNode) :
    (connectOne M i vOf l n).nid = n.nid := rfl

theorem connectOne_deleted (M i : Nat) (vOf : Nat → List Int) (l : Nat) (n : HNSWNode) :
    (connectOne M i vOf l n).deleted = n.deleted := rfl

theorem connectNode_nid (M i : Nat) (vOf : Nat → List Int) (sels : List (Nat × List Nat))
    (n : HNSWNode) : (connectNode M i vOf sels n).nid = n.nid := by
  unfold connectNode
  induction sels generalizing n with
  | nil => rfl
  | cons p rest ih =>
    rw [List.foldl_cons]
    by_cases h : n.nid ∈ p.2
    · rw [if_pos h, ih, connectOne_nid]
    · rw [if_neg h, ih]

theorem connectNode_deleted (M i : Nat) (vOf : Nat → List Int) (sels : List (Nat × List Nat))
    (n : HNSWNode) : (connectNode M i vOf sels n).deleted = n.deleted := by
  unfold connectNode
  induction sels generalizing n with
  | nil => rfl
  | cons p rest ih =>
    rw [List.foldl_cons]
    by_cases h : n.nid ∈ p.2
    · rw [if_pos h, ih, connectOne_deleted]
    · rw [if_neg h, ih]

theorem mem_insertResult (ef : Nat) (rs : List (Nat × Int)) (p x : Nat × Int)
    (hx : x ∈ insertResult ef rs p) : x ∈ rs ∨ x = p := by
  unfold insertResult at hx
  split_ifs at hx with h1
  · rcases List.mem_append.mp hx with h | h
    · exact Or.inl h
    · exact Or.inr (by simpa using h)
  · cases hw : maxPair rs with
    | some w =>
      rw [hw] at hx
      have hx' : x ∈ (if p.2 < w.2 then rs.erase w ++ [p] else rs) := hx
      split_ifs at hx' with h2
      · rcases List.mem_append.mp hx' with h | h
        · exact Or.inl ((List.erase_sublist w rs).subset h)
        · exact Or.inr (by simpa using h)
      · exact Or.inl hx'
    | none =>
      rw [hw] at hx
      have hx' : x ∈ rs ++ [p] := hx
      rcases List.mem_append.mp hx' with h | h
      · exact Or.inl h
      · exact Or.inr (by simpa using h)

/-- Everything in the beam state's result set and frontier is live. -/
def resLive (t : HNSWIndex) (st : BeamState) : Prop :=
  (∀ p ∈ st.results, t.isLive p.1 = true) ∧ (∀ p ∈ st.frontier, t.isLive p.1 = true)

theorem beamExpand_pres (t : HNSWIndex) (q : List Int) (l ef cid : Nat) (st : BeamState)
    (h : resLive t st) : resLive t (beamExpand t q l ef cid st) := by
  unfold beamExpand
  have hjs : ∀ j ∈ (t.liveNbrs cid l).filter (fun j => !(st.visited.contains j)),
      t.isLive j = true := by
    intro j hj
    exact (List.mem_filter.mp ((List.mem_filter.mp hj).1)).2
  generalize hl : (t.liveNbrs cid l).filter (fun j => !(st.visited.contains j)) = js
  rw [hl] at hjs
  clear hl
  induction js generalizing st with
  | nil => exact h
  | cons j rest ih =>
    rw [List.foldl_cons]
    have hj : t.isLive j = true := hjs j (List.mem_cons_self _ _)
    have hrest : ∀ x ∈ rest, t.isLive x = true := fun x hx => hjs x (List.mem_cons_of_mem _ hx)
    by_cases hacc : acceptNew ef st.results (t.distTo q j) = true
    · rw [if_pos hacc]
      refine ih _ ⟨?_, ?_⟩ hrest
      · intro p hp
        rcases mem_insertResult ef st.results (j, t.distTo q j) p hp with hold | hnew
        · exact h.1 p hold
        · rw [hnew]; exact hj
      · intro p hp
        rcases List.mem_append.mp hp with hold | hnew
        · exact h.2 p hold
        · have hpj : p = (j, t.distTo q j) := by simpa using hnew
          rw [hpj]; exact hj
    · rw [if_neg hacc]
      exact ih _ ⟨h.1, h.2⟩ hrest

theorem beamStep_pres (t : HNSWIndex) (q : List Int) (l ef : Nat) (st st' : BeamState)
    (h : beamStep t q l ef st = some st') (hres : resLive t st) : resLive t st' := by
  unfold beamStep at h
  cases hmin : minPair st.frontier with
  | none => rw [hmin] at h; cases h
  | some c =>
    rw [hmin] at h
    have hsub : resLive t { st with frontier := st.frontier.erase c } :=
      ⟨hres.1, fun p hp => hres.2 p ((List.erase_sublist c st.frontier).subset hp)⟩
    cases hmax : maxPair st.results with
    | none =>
      rw [hmax] at h
      cases h
      exact beamExpand_pres t q l ef c.1 _ hsub
    | some w =>
      rw [hmax] at h
      have h' : (if ef ≤ st.results.length ∧ w.2 < c.2 then none
          else some (beamExpand t q l ef c.1 { st with frontier := st.frontier.erase c }))
          = some st' := h
      by_cases hcond : ef ≤ st.results.length ∧ w.2 < c.2
      · rw [if_pos hcond] at h'
        cases h'
      · rw [if_neg hcond] at h'
        cases h'
        exact beamExpand_pres t q l ef c.1 _ hsub

theorem beamLoop_pres (t : HNSWIndex) (q : List Int) (l ef fuel : Nat) (st : BeamState)
    (h : resLive t st) : resLive t (beamLoop t q l ef fuel st) := by
  induction fuel generalizing st with
  | zero => exact h
  | succ n ih =>
    show resLive t (match beamStep t q l ef st with
      | none => st
      | some st' => beamLoop t q l ef n st')
    cases hs : beamStep t q l ef st with
    | none => exact h
    | some st' => exact ih st' (beamStep_pres t q l ef st st' hs h)

theorem searchLayer_live (t : HNSWIndex) (q : List Int) (l ef e : Nat)
    (he : t.isLive e = true) : ∀ p ∈ searchLayer t q l ef e, t.isLive p.1 = true := by
  have hinit : resLive t
      { visited := [e], frontier := [(e, t.distTo q e)], results := [(e, t.distTo q e)] } := by
    constructor
    · intro p hp
      have : p = (e, t.distTo q e) := by simpa using hp
      rw [this]; exact he
    · intro p hp
      have : p = (e, t.distTo q e) := by simpa using hp
      rw [this]; exact he
  exact (beamLoop_pres t q l ef (t.size + 2) _ hinit).1

theorem bestNbr_mem (t : HNSWIndex) (q : List Int) (cands : List Nat) (b : Nat)
    (h : bestNbr t q cands = some b) : b ∈ cands := by
  have haux : ∀ (rest : List Nat) (c : Nat),
      rest.foldl (fun b j =>
        if t.distTo q j < t.distTo q b ∨ (t.distTo q j = t.distTo q b ∧ j < b) then j
        else b) c ∈ c :: rest := by
    intro rest
    induction rest with
    | nil => intro c; exact List.mem_cons_self _ _
    | cons x xs ih =>
      intro c
      rw [List.foldl_cons]
      by_cases hc : t.distTo q x < t.distTo q c ∨ (t.distTo q x = t.distTo q c ∧ x < c)
      · rw [if_pos hc]
        rcases List.mem_cons.mp (ih x) with hr | hr
        · rw [hr]
          exact List.mem_cons_of_mem _ (List.mem_cons_self _ _)
        · exact List.mem_cons_of_mem _ (List.mem_cons_of_mem _ hr)
      · rw [if_neg hc]
        rcases List.mem_cons.mp (ih c) with hr | hr
        · rw [hr]
          exact List.mem_cons_self _ _
        · exact List.mem_cons_of_mem _ (List.mem_cons_of_mem _ hr)
  cases cands with
  | nil => cases h
  | cons c rest =>
    have hb : rest.foldl (fun b j =>
        if t.distTo q j < t.distTo q b ∨ (t.distTo q j = t.distTo q b ∧ j < b) then j
        else b) c = b := by
      have h' : some (rest.foldl (fun b j =>
          if t.distTo q j < t.distTo q b ∨ (t.distTo q j = t.distTo q b ∧ j < b) then j
          else b) c) = some b := h
      cases h'
      rfl
    rw [← hb]
    exact haux rest c

theorem greedyWalk_live (t : HNSWIndex) (q : List Int) (l fuel c : Nat)
    (h : t.isLive c = true) : t.isLive (greedyWalk t q l fuel c) = true := by
  induction fuel generalizing c with
  | zero => exact h
  | succ n ih =>
    show t.isLive (match bestNbr t q (t.liveNbrs c l) with
      | none => c
      | some b => if t.distTo q b < t.distTo q c then greedyWalk t q l n b else c) = true
    cases hb : bestNbr t q (t.liveNbrs c l) with
    | none => exact h
    | some b =>
      show t.isLive (if t.distTo q b < t.distTo q c then greedyWalk t q l n b else c) = true
      by_cases hlt : t.distTo q b < t.distTo q c
      · rw [if_pos hlt]
        have hbl : t.isLive b = true :=
          (List.mem_filter.mp (bestNbr_mem t q _ b hb)).2
        exact ih b hbl
      · rw [if_neg hlt]
        exact h

theorem descendLoop_live (t : HNSWIndex) (q : List Int) (layers : List Nat) (e : Nat)
    (h : t.isLive e = true) : t.isLive (descendLoop t q layers e) = true := by
  unfold descendLoop
  induction layers generalizing e with
  | nil => exact h
  | cons l rest ih =>
    rw [List.foldl_cons]
    exact ih _ (greedyWalk_live t q l (t.size + 1) e h)

end HNSWIndex

namespace HNSWIndex

theorem searchCore_length_le (t : HNSWIndex) (q : List Int) (k ef : Nat) :
    (searchCore t q k ef).length ≤ k := by
  unfold searchCore
  cases t.entry with
  | none => show (List.length ([] : List (Nat × Int))) ≤ k; simp
  | some e =>
    show (match t.find? e with
      | none => ([] : List (Nat × Int))
      | some en => sortTake k (dedupKeys
          (searchLayer t q 0 ef (descendLoop t q (layersDown en.topLayer 1) e)))).length ≤ k
    cases t.find? e with
    | none => simp
    | some en => exact sortTake_length_le _ _

theorem searchCore_sorted (t : HNSWIndex) (q : List Int) (k ef : Nat) :
    List.Pairwise pairLT (searchCore t q k ef) := by
  unfold searchCore
  cases t.entry with
  | none => show List.Pairwise pairLT []; simp
  | some e =>
    show List.Pairwise pairLT (match t.find? e with
      | none => ([] : List (Nat × Int))
      | some en => sortTake k (dedupKeys
          (searchLayer t q 0 ef (descendLoop t q (layersDown en.topLayer 1) e))))
    cases t.find? e with
    | none => simp
    | some en => exact sortTake_sorted_strict _ _ (dedupKeys_nodup _)

theorem searchCore_mem_live (t : HNSWIndex) (q : List Int) (k ef : Nat)
    (hent : ∀ e, t.entry = some e → t.isLive e = true) :
    ∀ p ∈ searchCore t q k ef, t.isLive p.1 = true := by
  unfold searchCore
  cases hen : t.entry with
  | none => intro p hp; cases hp
  | some e =>
    show ∀ p ∈ (match t.find? e with
      | none => ([] : List (Nat × Int))
      | some en => sortTake k (dedupKeys
          (searchLayer t q 0 ef (descendLoop t q (layersDown en.topLayer 1) e)))),
        t.isLive p.1 = true
    cases t.find? e with
    | none => intro p hp; cases hp
    | some en =>
      intro p hp
      have hp1 : p ∈ dedupKeys (searchLayer t q 0 ef (descendLoop t q (layersDown en.topLayer 1) e)) :=
        sortTake_subset _ _ p hp
      have hp2 := dedupKeys_subset _ p hp1
      exact searchLayer_live t q 0 ef _ (descendLoop_live t q _ e (hent e hen)) p hp2

theorem strip_entry_live (s : HNSWIndex) :
    ∀ e, (strip s).entry = some e → (strip s).isLive e = true := by
  intro e he
  rw [isLive_iff_mem, strip_liveIds]
  exact strip_entry_mem s e he

theorem isLive_strip (s : HNSWIndex) (j : Nat) :
    (strip s).isLive j = true ↔ s.isLive j = true := by
  rw [isLive_iff_mem, strip_liveIds, isLive_iff_mem]

theorem search_mem_live_h (s : HNSWIndex) (q : List Int) (k ef : Nat) (r : List (Nat × Int))
    (h : s.search q k ef = .ok r) : ∀ p ∈ r, s.isLive p.1 = true := by
  unfold search at h
  split_ifs at h
  intro p hp
  have hr : r = searchCore (strip s) q k ef := by
    cases h
    rfl
  have := searchCore_mem_live (strip s) q k ef (strip_entry_live s) p (hr ▸ hp)
  exact (isLive_strip s p.1).mp this

theorem search_ok (s : HNSWIndex) (q : List Int) (k ef : Nat)
    (hq : q.length = s.dim) (hk : 1 ≤ k) (hef : k ≤ ef) :
    s.search q k ef = .ok (searchCore (strip s) q k ef) := by
  unfold search
  rw [if_neg (by omega : ¬ q.length ≠ s.dim), if_neg (by omega : ¬ k = 0),
    if_neg (by omega : ¬ ef < k)]

theorem searchCore_strip_empty (s : HNSWIndex) (q : List Int) (k ef : Nat)
    (h : s.size = 0) : searchCore (strip s) q k ef = [] := by
  have hnil : s.liveNodes = [] := List.length_eq_zero.mp h
  have hids : s.liveIds = [] := by
    unfold liveIds
    rw [hnil]
    rfl
  have hentry : (strip s).entry = none := by
    show (match s.entry with
      | some e => if e ∈ s.liveIds then some e else none
      | none => none) = none
    cases s.entry with
    | none => rfl
    | some e =>
      show (if e ∈ s.liveIds then some e else none) = none
      rw [if_neg (by rw [hids]; exact List.not_mem_nil e)]
  unfold searchCore
  rw [hentry]

end HNSWIndex

namespace HNSWIndex

theorem markFirstNode_eq_none_iff (ns : List HNSWNode) (i : Nat) :
    markFirstNode ns i = none ↔ ∀ n ∈ ns, ¬(n.nid = i ∧ n.deleted = false) := by
  induction ns with
  | nil => simp [markFirstNode]
  | cons n rest ih =>
    by_cases h : n.nid = i ∧ n.deleted = false
    · simp [markFirstNode, if_pos h, h]
    · rw [markFirstNode, if_neg h]
      cases hm : markFirstNode rest i with
      | some rest' =>
        simp only [List.mem_cons]
        constructor
        · intro hc; exact absurd hc (by simp)
        · intro hall
          have : markFirstNode rest i = none := ih.mpr (fun x hx => hall x (Or.inr hx))
          rw [hm] at this; exact absurd this (by simp)
      | none =>
        simp only [List.mem_cons]
        constructor
        · intro _ x hx
          rcases hx with rfl | hx
          · exact h
          · exact ih.mp hm x hx
        · intro _; trivial

theorem markFirstNode_some_decomp (ns : List HNSWNode) (i : Nat) (ns' : List HNSWNode)
    (h : markFirstNode ns i = some ns') :
    ∃ pre n post, ns = pre ++ n :: post ∧ n.nid = i ∧ n.deleted = false ∧
      ns' = pre ++ { n with deleted := true } :: post := by
  induction ns generalizing ns' with
  | nil => simp [markFirstNode] at h
  | cons n rest ih =>
    by_cases hc : n.nid = i ∧ n.deleted = false
    · rw [markFirstNode, if_pos hc] at h
      exact ⟨[], n, rest, by simp, hc.1, hc.2, by simpa using h.symm⟩
    · rw [markFirstNode, if_neg hc] at h
      cases hm : markFirstNode rest i with
      | some rest' =>
        rw [hm] at h
        obtain ⟨pre, x, post, hsplit, hid, hdel, hres⟩ := ih rest' hm
        refine ⟨n :: pre, x, post, by simp [hsplit], hid, hdel, ?_⟩
        cases h
        simp [hres]
      | none => rw [hm] at h; cases h

theorem isLive_eq_markFirstNode_none (s : HNSWIndex) (i : Nat) (h : s.isLive i = false) :
    markFirstNode s.nodes i = none := by
  rw [markFirstNode_eq_none_iff]
  intro n hn hc
  have : s.isLive i = true := (isLive_iff_nodes s i).mpr ⟨n, hn, hc.1, hc.2⟩
  rw [this] at h
  exact Bool.true_eq_false.mp h

theorem remove_not_live_h (s : HNSWIndex) (i : Nat) (h : s.isLive i = false) :
    s.remove i = .error .NotFound := by
  have hnone := isLive_eq_markFirstNode_none s i h
  simp [remove, removeR, hnone]

theorem markFirstNode_of_live (s : HNSWIndex) (i : Nat) (h : s.isLive i = true) :
    ∃ ns', markFirstNode s.nodes i = some ns' := by
  cases hm : markFirstNode s.nodes i with
  | none =>
    obtain ⟨n, hn, h1, h2⟩ := (isLive_iff_nodes s i).mp h
    exact absurd ⟨h1, h2⟩ ((markFirstNode_eq_none_iff s.nodes i).mp hm n hn)
  | some ns' => exact ⟨ns', rfl⟩

theorem removeR_eq (s : HNSWIndex) (i : Nat) (ns' : List HNSWNode)
    (hm : markFirstNode s.nodes i = some ns') :
    s.removeR i = (.ok (), { s with
      nodes := ns',
      entry := (if s.entry = some i then pickEntry ns' else s.entry) }) := by
  unfold removeR
  rw [hm]
  show (if s.entry = some i
      then ((.ok (), { s with nodes := ns', entry := pickEntry ns' }) :
        Except IndexError Unit × HNSWIndex)
      else (.ok (), { s with nodes := ns', entry := s.entry })) = _
  by_cases he : s.entry = some i
  · simp [he]
  · simp [he]

theorem remove_ok_of_live (s : HNSWIndex) (i : Nat) (h : s.isLive i = true) :
    s.remove i = .ok ((s.removeR i).2) ∧
      (s.removeR i).2.nodes = (markFirstNode s.nodes i).getD [] := by
  obtain ⟨ns', hm⟩ := markFirstNode_of_live s i h
  have hr := removeR_eq s i ns' hm
  constructor
  · unfold remove
    rw [hr]
  · rw [hr, hm]
    rfl

theorem liveLen_markFirstNode (ns : List HNSWNode) (i : Nat) (ns' : List HNSWNode)
    (h : markFirstNode ns i = some ns') :
    (ns'.filter (fun n => !n.deleted)).length + 1 = (ns.filter (fun n => !n.deleted)).length := by
  obtain ⟨pre, n, post, hsplit, _, hdel, hres⟩ := markFirstNode_some_decomp _ _ _ h
  rw [hres, hsplit, List.filter_append, List.filter_append, List.filter_cons, List.filter_cons]
  simp only [hdel, Bool.not_false, Bool.not_true, if_pos, if_neg, List.length_append]
  simp [List.length_cons]
  omega

theorem map_nid_markFirstNode (ns : List HNSWNode) (i : Nat) (ns' : List HNSWNode)
    (h : markFirstNode ns i = some ns') : ns'.map HNSWNode.nid = ns.map HNSWNode.nid := by
  obtain ⟨pre, n, post, hsplit, _, _, hres⟩ := markFirstNode_some_decomp _ _ _ h
  rw [hres, hsplit]
  simp

theorem mem_markFirstNode_live (ns : List HNSWNode) (i : Nat) (ns' : List HNSWNode)
    (h : markFirstNode ns i = some ns') (x : HNSWNode) (hx : x ∈ ns')
    (hxdel : x.deleted = false) : x ∈ ns := by
  obtain ⟨pre, n, post, hsplit, _, _, hres⟩ := markFirstNode_some_decomp _ _ _ h
  rw [hres] at hx
  rw [hsplit]
  rcases List.mem_append.mp hx with hxpre | hxmid
  · exact List.mem_append.mpr (Or.inl hxpre)
  · rcases List.mem_cons.mp hxmid with rfl | hxpost
    · simp at hxdel
    · exact List.mem_append.mpr (Or.inr (List.mem_cons_of_mem _ hxpost))

theorem isLive_markFirstNode_self (s : HNSWIndex) (i : Nat) (ns' : List HNSWNode)
    (hWF : s.WF) (h : markFirstNode s.nodes i = some ns') :
    ∀ x ∈ ns', ¬(x.nid = i ∧ x.deleted = false) := by
  obtain ⟨pre, n, post, hsplit, hid, _, hres⟩ := markFirstNode_some_decomp _ _ _ h
  have hnd := hWF
  unfold WF allIds at hnd
  rw [hsplit, List.map_append, List.map_cons, List.nodup_append] at hnd
  obtain ⟨_, hnd2, hdisj⟩ := hnd
  intro x hx ⟨hxid, hxdel⟩
  rw [hres] at hx
  rcases List.mem_append.mp hx with hxpre | hxmid
  · exact hdisj (List.mem_map.mpr ⟨x, hxpre, hid ▸ hxid⟩) (List.mem_cons_self _ _)
  · rcases List.mem_cons.mp hxmid with rfl | hxpost
    · simp at hxdel
    · exact (List.nodup_cons.mp hnd2).1 (List.mem_map.mpr ⟨x, hxpost, by rw [hxid, hid]⟩)

theorem allIds_addFull (s : HNSWIndex) (level i : Nat) (v : List Int) (top : Nat)
    (sels : List (Nat × List Nat)) :
    (addFull s level i v top sels).allIds = s.allIds ++ [i] := by
  show ((s.nodes.map (connectNode s.M i (vecOfWith s i v) sels)) ++
      [(⟨i, v, level, newNodeNbrs sels level, false⟩ : HNSWNode)]).map HNSWNode.nid
      = s.allIds ++ [i]
  rw [List.map_append, List.map_map]
  congr 1
  apply List.map_congr_left
  intro n _
  exact connectNode_nid s.M i (vecOfWith s i v) sels n

theorem isLive_addFull (s : HNSWIndex) (level i : Nat) (v : List Int) (top : Nat)
    (sels : List (Nat × List Nat)) (j : Nat)
    (h : (addFull s level i v top sels).isLive j = true) : j = i ∨ s.isLive j = true := by
  obtain ⟨x, hx, hxid, hxdel⟩ := (isLive_iff_nodes _ j).mp h
  have hx' : x ∈ (s.nodes.map (connectNode s.M i (vecOfWith s i v) sels)) ++
      [(⟨i, v, level, newNodeNbrs sels level, false⟩ : HNSWNode)] := hx
  rcases List.mem_append.mp hx' with hold | hnew
  · obtain ⟨m, hm, rfl⟩ := List.mem_map.mp hold
    right
    refine (isLive_iff_nodes s j).mpr ⟨m, hm, ?_, ?_⟩
    · rw [← connectNode_nid s.M i (vecOfWith s i v) sels m]
      exact hxid
    · rw [← connectNode_deleted s.M i (vecOfWith s i v) sels m]
      exact hxdel
  · left
    have hxe : x = ⟨i, v, level, newNodeNbrs sels level, false⟩ := by simpa using hnew
    rw [← hxid, hxe]

theorem allIds_addCore (s : HNSWIndex) (level i : Nat) (v : List Int) :
    (addCore s level i v).allIds = s.allIds ++ [i] := by
  unfold addCore
  cases hen : s.liveEntryNode with
  | none =>
    show (s.nodes ++ [(⟨i, v, level, List.replicate (level + 1) [], false⟩ : HNSWNode)]).map
        HNSWNode.nid = s.allIds ++ [i]
    simp [allIds]
  | some en => exact allIds_addFull s level i v en.topLayer _

theorem isLive_addCore (s : HNSWIndex) (level i : Nat) (v : List Int) (j : Nat)
    (h : (addCore s level i v).isLive j = true) : j = i ∨ s.isLive j = true := by
  unfold addCore at h
  cases hen : s.liveEntryNode with
  | none =>
    rw [hen] at h
    have h' : ({ s with
        nodes := s.nodes ++ [(⟨i, v, level, List.replicate (level + 1) [], false⟩ : HNSWNode)],
        entry := some i } : HNSWIndex).isLive j = true := h
    obtain ⟨x, hx, hxid, hxdel⟩ := (isLive_iff_nodes _ j).mp h'
    have hx' : x ∈ s.nodes ++ [(⟨i, v, level, List.replicate (level + 1) [], false⟩ : HNSWNode)] := hx
    rcases List.mem_append.mp hx' with hold | hnew
    · exact Or.inr ((isLive_iff_nodes s j).mpr ⟨x, hold, hxid, hxdel⟩)
    · left
      have hxe : x = ⟨i, v, level, List.replicate (level + 1) [], false⟩ := by simpa using hnew
      rw [← hxid, hxe]
  | some en =>
    rw [hen] at h
    have h' : (addFull s level i v en.topLayer
        (buildLayers s v (descendLoop s v (layersDown en.topLayer (level + 1)) en.nid)
          (min level en.topLayer)).2).isLive j = true := h
    exact isLive_addFull s level i v en.topLayer _ j h'

/-- A tombstoned id: present in the arena but not live. -/
def tomb (s : HNSWIndex) (i : Nat) : Prop :=
  i ∈ s.allIds ∧ s.isLive i = false

theorem tomb_applyOp_h (s : HNSWIndex) (op : HOp) (i : Nat)
    (h : s.tomb i) (hWF : s.WF) : (s.applyOp op).tomb i ∧ (s.applyOp op).WF := by
  obtain ⟨hin, hnl⟩ := h
  cases op with
  | addOp level j v =>
    show ((s.addR level j v).2.tomb i ∧ (s.addR level j v).2.WF)
    unfold addR
    split_ifs with h1 h2
    · exact ⟨⟨hin, hnl⟩, hWF⟩
    · exact ⟨⟨hin, hnl⟩, hWF⟩
    · refine ⟨⟨?_, ?_⟩, ?_⟩
      · rw [allIds_addCore]
        exact List.mem_append.mpr (Or.inl hin)
      · by_contra hc
        rcases isLive_addCore s level j v i (BruteForceIndex.bool_eq_true_of_ne_false hc) with hij | hlv
        · exact h2 (hij ▸ hin)
        · rw [hlv] at hnl
          exact Bool.true_eq_false.mp hnl
      · show (addCore s level j v).allIds.Nodup
        rw [allIds_addCore, List.nodup_append]
        refine ⟨hWF, by simp, ?_⟩
        intro a ha hb
        have : a = j := by simpa using hb
        exact h2 (this ▸ ha)
  | removeOp j =>
    show ((s.removeR j).2.tomb i ∧ (s.removeR j).2.WF)
    unfold removeR
    cases hm : markFirstNode s.nodes j with
    | none => exact ⟨⟨hin, hnl⟩, hWF⟩
    | some ns' =>
      have hids : ns'.map HNSWNode.nid = s.nodes.map HNSWNode.nid :=
        map_nid_markFirstNode s.nodes j ns' hm
      have hlive : ∀ (E : Option Nat),
          ({ s with nodes := ns', entry := E } : HNSWIndex).isLive i = false := by
        intro E
        by_contra hc
        obtain ⟨x, hx, hxid, hxdel⟩ :=
          (isLive_iff_nodes _ i).mp (BruteForceIndex.bool_eq_true_of_ne_false hc)
        have hxin : x ∈ ns' := hx
        have : s.isLive i = true :=
          (isLive_iff_nodes s i).mpr
            ⟨x, mem_markFirstNode_live s.nodes j ns' hm x hxin hxdel, hxid, hxdel⟩
        rw [this] at hnl
        exact Bool.true_eq_false.mp hnl
      have hin' : ∀ (E : Option Nat), i ∈ ({ s with nodes := ns', entry := E } : HNSWIndex).allIds := by
        intro E
        show i ∈ ns'.map HNSWNode.nid
        rw [hids]
        exact hin
      have hWF' : ∀ (E : Option Nat), ({ s with nodes := ns', entry := E } : HNSWIndex).WF := by
        intro E
        show (ns'.map HNSWNode.nid).Nodup
        rw [hids]
        exact hWF
      split_ifs
      · exact ⟨⟨hin' _, hlive _⟩, hWF' _⟩
      · exact ⟨⟨hin' _, hlive _⟩, hWF' _⟩

theorem tomb_applyOps_h (s : HNSWIndex) (ops : List HOp) (i : Nat)
    (h : s.tomb i) (hWF : s.WF) :
    (s.applyOps ops).tomb i ∧ (s.applyOps ops).WF := by
  induction ops generalizing s with
  | nil => exact ⟨h, hWF⟩
  | cons op rest ih =>
    obtain ⟨h1, h2⟩ := tomb_applyOp_h s op i h hWF
    exact ih (s.applyOp op) h1 h2

end HNSWIndex

theorem selLE_trans (t : List Int) : ∀ (a b c : Nat × List Int),
    selLE t a b → selLE t b c → selLE t a c := by
  rintro a b c (h | ⟨h, h'⟩) (g | ⟨g, g'⟩)
  · exact Or.inl (lt_trans h g)
  · exact Or.inl (g ▸ h)
  · exact Or.inl (h ▸ g)
  · exact Or.inr ⟨h.trans g, le_trans h' g'⟩

theorem selLE_total (t : List Int) : ∀ (a b : Nat × List Int), selLE t a b ∨ selLE t b a := by
  intro a b
  rcases lt_trichotomy (sqDist t a.2) (sqDist t b.2) with h | h | h
  · exact Or.inl (Or.inl h)
  · rcases Nat.le_total a.1 b.1 with h' | h'
    · exact Or.inl (Or.inr ⟨h, h'⟩)
    · exact Or.inr (Or.inr ⟨h.symm, h'⟩)
  · exact Or.inr (Or.inl h)

instance (t : List Int) : IsTrans (Nat × List Int) (selLE t) := ⟨selLE_trans t⟩

instance (t : List Int) : IsTotal (Nat × List Int) (selLE t) := ⟨selLE_total t⟩

theorem selSort_sorted (t : List Int) (cs : List (Nat × List Int)) :
    List.Pairwise (selLE t) (selSort t cs) :=
  List.sorted_insertionSort (selLE t) cs

theorem selSort_perm (t : List Int) (cs : List (Nat × List Int)) :
    (selSort t cs).Perm cs :=
  List.perm_insertionSort (selLE t) cs

theorem phase1Go_len (t : List Int) (Mcap : Nat) :
    ∀ (input sel rej : List (Nat × List Int)),
      (phase1Go t Mcap sel rej input).1.length + (phase1Go t Mcap sel rej input).2.length
        = sel.length + rej.length + input.length := by
  intro input
  induction input with
  | nil => intro sel rej; simp [phase1Go]
  | cons c rest ih =>
    intro sel rej
    simp only [phase1Go]
    by_cases hc : sel.length < Mcap ∧ notDominated sel c.2 (sqDist t c.2) = true
    · rw [if_pos hc, ih]
      simp
      omega
    · rw [if_neg hc, ih]
      simp
      omega

theorem phase1Go_sel_le (t : List Int) (Mcap : Nat) :
    ∀ (input sel rej : List (Nat × List Int)), sel.length ≤ Mcap →
      (phase1Go t Mcap sel rej input).1.length ≤ Mcap := by
  intro input
  induction input with
  | nil => intro sel rej h; simpa [phase1Go] using h
  | cons c rest ih =>
    intro sel rej h
    simp only [phase1Go]
    by_cases hc : sel.length < Mcap ∧ notDominated sel c.2 (sqDist t c.2) = true
    · rw [if_pos hc]
      refine ih _ _ ?_
      simp only [List.length_append, List.length_cons, List.length_nil]
      omega
    · rw [if_neg hc]
      exact ih _ _ h

theorem phase1Go_mem (t : List Int) (Mcap : Nat) :
    ∀ (input sel rej : List (Nat × List Int)) (p : Nat × List Int),
      (p ∈ (phase1Go t Mcap sel rej input).1 → p ∈ sel ∨ p ∈ input) ∧
      (p ∈ (phase1Go t Mcap sel rej input).2 → p ∈ rej ∨ p ∈ input) := by
  intro input
  induction input with
  | nil =>
    intro sel rej p
    constructor
    · intro hp; exact Or.inl (by simpa [phase1Go] using hp)
    · intro hp; exact Or.inl (by simpa [phase1Go] using hp)
  | cons c rest ih =>
    intro sel rej p
    simp only [phase1Go]
    by_cases hc : sel.length < Mcap ∧ notDominated sel c.2 (sqDist t c.2) = true
    · rw [if_pos hc]
      constructor
      · intro hp
        rcases (ih (sel ++ [c]) rej p).1 hp with h | h
        · rcases List.mem_append.mp h with h' | h'
          · exact Or.inl h'
          · exact Or.inr (List.mem_cons.mpr (Or.inl (by simpa using h')))
        · exact Or.inr (List.mem_cons_of_mem _ h)
      · intro hp
        rcases (ih (sel ++ [c]) rej p).2 hp with h | h
        · exact Or.inl h
        · exact Or.inr (List.mem_cons_of_mem _ h)
    · rw [if_neg hc]
      constructor
      · intro hp
        rcases (ih sel (rej ++ [c]) p).1 hp with h | h
        · exact Or.inl h
        · exact Or.inr (List.mem_cons_of_mem _ h)
      · intro hp
        rcases (ih sel (rej ++ [c]) p).2 hp with h | h
        · rcases List.mem_append.mp h with h' | h'
          · exact Or.inl h'
          · exact Or.inr (List.mem_cons.mpr (Or.inl (by simpa using h')))
        · exact Or.inr (List.mem_cons_of_mem _ h)

theorem phase1Go_kept (t : List Int) (Mcap : Nat) :
    ∀ (input sel rej : List (Nat × List Int)),
      ∃ extra, (phase1Go t Mcap sel rej input).1 = sel ++ extra ∧ extra.Sublist input ∧
        ∀ pre c post, extra = pre ++ c :: post →
          notDominated (sel ++ pre) c.2 (sqDist t c.2) = true ∧ (sel ++ pre).length < Mcap := by
  intro input
  induction input with
  | nil =>
    intro sel rej
    refine ⟨[], by simp [phase1Go], List.nil_sublist _, ?_⟩
    intro pre c post h
    have := congrArg List.length h
    simp at this
    omega
  | cons c0 rest ih =>
    intro sel rej
    simp only [phase1Go]
    by_cases hc : sel.length < Mcap ∧ notDominated sel c0.2 (sqDist t c0.2) = true
    · rw [if_pos hc]
      obtain ⟨extra, h1, h2, h3⟩ := ih (sel ++ [c0]) rej
      refine ⟨c0 :: extra, ?_, ?_, ?_⟩
      · rw [h1]
        simp
      · exact List.Sublist.cons₂ c0 h2
      · intro pre c post h
        cases pre with
        | nil =>
          simp only [List.nil_append, List.cons.injEq] at h
          obtain ⟨rfl, rfl⟩ := h
          rw [List.append_nil]
          exact ⟨hc.2, hc.1⟩
        | cons p pre' =>
          rw [List.cons_append, List.cons.injEq] at h
          obtain ⟨rfl, hx⟩ := h
          obtain ⟨hnd, hlen⟩ := h3 pre' c post hx
          rw [List.append_assoc] at hnd hlen
          exact ⟨by simpa using hnd, by simpa using hlen⟩
    · rw [if_neg hc]
      obtain ⟨extra, h1, h2, h3⟩ := ih sel (rej ++ [c0])
      exact ⟨extra, h1, h2.trans (List.sublist_cons_self c0 rest), h3⟩

theorem selectNeighbors_length (t : List Int) (cands : List (Nat × List Int)) (Mcap : Nat) :
    (selectNeighbors t cands Mcap).length = min Mcap cands.length := by
  unfold selectNeighbors
  have hlen := phase1Go_len t Mcap (selSort t cands) [] []
  have hle := phase1Go_sel_le t Mcap (selSort t cands) [] [] (by simp)
  have hsort : (selSort t cands).length = cands.length := (selSort_perm t cands).length_eq
  simp only [List.length_nil] at hlen
  simp only [List.length_append, List.length_take]
  omega

theorem selectNeighbors_subset (t : List Int) (cands : List (Nat × List Int)) (Mcap : Nat) :
    ∀ p ∈ selectNeighbors t cands Mcap, p ∈ cands := by
  intro p hp
  unfold selectNeighbors at hp
  rcases List.mem_append.mp hp with h | h
  · rcases (phase1Go_mem t Mcap (selSort t cands) [] [] p).1 h with h' | h'
    · simp at h'
    · exact (selSort_perm t cands).subset h'
  · have h2 : p ∈ (phase1Go t Mcap [] [] (selSort t cands)).2 :=
      (List.take_sublist _ _).subset h
    rcases (phase1Go_mem t Mcap (selSort t cands) [] [] p).2 h2 with h' | h'
    · simp at h'
    · exact (selSort_perm t cands).subset h'

theorem phase1Go_append (t : List Int) (Mcap : Nat) :
    ∀ (xs ys sel rej : List (Nat × List Int)),
      phase1Go t Mcap sel rej (xs ++ ys)
        = phase1Go t Mcap (phase1Go t Mcap sel rej xs).1 (phase1Go t Mcap sel rej xs).2 ys := by
  intro xs
  induction xs with
  | nil =>
    intro ys sel rej
    rfl
  | cons c rest ih =>
    intro ys sel rej
    rw [List.cons_append]
    simp only [phase1Go]
    by_cases hc : sel.length < Mcap ∧ notDominated sel c.2 (sqDist t c.2) = true
    · rw [if_pos hc, if_pos hc]
      exact ih ys (sel ++ [c]) rej
    · rw [if_neg hc, if_neg hc]
      exact ih ys sel (rej ++ [c])

theorem phase1Go_rej (t : List Int) (Mcap : Nat) :
    ∀ (input sel rej : List (Nat × List Int)),
      ∃ extra, (phase1Go t Mcap sel rej input).2 = rej ++ extra ∧ extra.Sublist input := by
  intro input
  induction input with
  | nil =>
    intro sel rej
    exact ⟨[], by simp [phase1Go], List.nil_sublist _⟩
  | cons c rest ih =>
    intro sel rej
    simp only [phase1Go]
    by_cases hc : sel.length < Mcap ∧ notDominated sel c.2 (sqDist t c.2) = true
    · rw [if_pos hc]
      obtain ⟨extra, he, hs⟩ := ih (sel ++ [c]) rej
      exact ⟨extra, he, hs.trans (List.sublist_cons_self c rest)⟩
    · rw [if_neg hc]
      obtain ⟨extra, he, hs⟩ := ih sel (rej ++ [c])
      refine ⟨c :: extra, ?_, List.Sublist.cons₂ c hs⟩
      rw [he]
      simp

theorem phase1Go_keeps_undominated (t : List Int) (Mcap : Nat)
    (cands : List (Nat × List Int)) (pre : List (Nat × List Int)) (c : Nat × List Int)
    (post : List (Nat × List Int)) (hdec : selSort t cands = pre ++ c :: post)
    (hlen : (phase1Go t Mcap [] [] pre).1.length < Mcap)
    (hdom : notDominated (phase1Go t Mcap [] [] pre).1 c.2 (sqDist t c.2) = true) :
    ∃ tail, (phase1Go t Mcap [] [] (selSort t cands)).1
      = (phase1Go t Mcap [] [] pre).1 ++ c :: tail := by
  rw [hdec, phase1Go_append]
  simp only [phase1Go]
  rw [if_pos ⟨hlen, hdom⟩]
  obtain ⟨extra, he, _, _⟩ :=
    phase1Go_kept t Mcap post ((phase1Go t Mcap [] [] pre).1 ++ [c]) (phase1Go t Mcap [] [] pre).2
  refine ⟨extra, ?_⟩
  rw [he, List.append_assoc]
  simp

theorem phase1Go_rejects_dominated (t : List Int) (Mcap : Nat)
    (cands : List (Nat × List Int)) (pre : List (Nat × List Int)) (c : Nat × List Int)
    (post : List (Nat × List Int)) (hdec : selSort t cands = pre ++ c :: post)
    (hnot : ¬((phase1Go t Mcap [] [] pre).1.length < Mcap ∧
      notDominated (phase1Go t Mcap [] [] pre).1 c.2 (sqDist t c.2) = true)) :
    ∃ tail, (phase1Go t Mcap [] [] (selSort t cands)).2
      = (phase1Go t Mcap [] [] pre).2 ++ c :: tail := by
  rw [hdec, phase1Go_append]
  simp only [phase1Go]
  rw [if_neg hnot]
  obtain ⟨extra, he, _⟩ :=
    phase1Go_rej t Mcap post (phase1Go t Mcap [] [] pre).1 ((phase1Go t Mcap [] [] pre).2 ++ [c])
  refine ⟨extra, ?_⟩
  rw [he, List.append_assoc]
  simp

namespace BruteForceIndex

theorem livePairs_fst_nodup (s : BruteForceIndex) (q : List Int) (h : s.WF) :
    ((s.livePairs q).map Prod.fst).Nodup := by
  unfold livePairs
  rw [List.map_map]
  have hn : (s.liveEntries.map BFEntry.eid).Nodup := by
    have hsub : s.liveEntries.Sublist s.entries := List.filter_sublist _
    exact (hsub.map BFEntry.eid).nodup h
  exact hn

theorem remove_ok (s : BruteForceIndex) (i : Nat) (es' : List BFEntry)
    (hm : markFirst s.entries i = some es') :
    s.remove i = .ok { s with entries := es' } := by
  unfold remove removeR
  rw [hm]

theorem isLive_mem_allIds (s : BruteForceIndex) (i : Nat) (h : s.isLive i = true) :
    i ∈ s.allIds := by
  obtain ⟨e, he, heq, _⟩ := (isLive_iff s i).mp h
  exact List.mem_map.mpr ⟨e, he, heq⟩

end BruteForceIndex

namespace HNSWIndex

theorem isLive_mem_allIds_h (s : HNSWIndex) (i : Nat) (h : s.isLive i = true) :
    i ∈ s.allIds := by
  obtain ⟨n, hn, heq, _⟩ := (isLive_iff_nodes s i).mp h
  exact List.mem_map.mpr ⟨n, hn, heq⟩

end HNSWIndex

/-- C1: for both index variants, on a well-formed index and query
(`q` of the index's dimensionality, `k ≥ 1`, and for HNSW `ef ≥ k`),
`search` succeeds and returns at most `k` `(internal_id, distance)` pairs in
strictly ascending distance order, with any two results at exactly equal
distance in ascending internal-id order (the `pairLT` ordering). -/
theorem claim1_search_sorted :
    (∀ (s : BruteForceIndex) (q : List Int) (k : Nat), s.WF → q.length = s.dim → 1 ≤ k →
      ∃ r, s.search q k = .ok r ∧ r.length ≤ k ∧ List.Pairwise pairLT r) ∧
    (∀ (s : HNSWIndex) (q : List Int) (k ef : Nat), q.length = s.dim → 1 ≤ k → k ≤ ef →
      ∃ r, s.search q k ef = .ok r ∧ r.length ≤ k ∧ List.Pairwise pairLT r) := by
  constructor
  · intro s q k hWF hq hk
    refine ⟨sortTake k (s.livePairs q), ?_, sortTake_length_le _ _,
      sortTake_sorted_strict _ _ (s.livePairs_fst_nodup q hWF)⟩
    unfold BruteForceIndex.search
    rw [if_neg (by omega), if_neg (by omega)]
  · intro s q k ef hq hk hef
    exact ⟨HNSWIndex.searchCore (s.strip) q k ef, HNSWIndex.search_ok s q k ef hq hk hef,
      HNSWIndex.searchCore_length_le _ _ _ _, HNSWIndex.searchCore_sorted _ _ _ _⟩

/-- Witness for C1 on concrete two-element indexes. -/
theorem claim1_search_sorted_witness :
    (∃ r, BruteForceIndex.search ⟨1, [⟨0, [2], false⟩, ⟨1, [5], false⟩]⟩ [3] 2 = .ok r ∧
      r.length ≤ 2 ∧ List.Pairwise pairLT r) ∧
    (∃ r, HNSWIndex.search ⟨1, 2, 2, [⟨0, [4], 0, [[]], false⟩], some 0⟩ [3] 1 2 = .ok r ∧
      r.length ≤ 1 ∧ List.Pairwise pairLT r) :=
  ⟨claim1_search_sorted.1 ⟨1, [⟨0, [2], false⟩, ⟨1, [5], false⟩]⟩ [3] 2
      (by show ([0, 1] : List Nat).Nodup; decide) (by decide) (by decide),
    claim1_search_sorted.2 ⟨1, 2, 2, [⟨0, [4], 0, [[]], false⟩], some 0⟩ [3] 1 2
      (by decide) (by decide) (by decide)⟩

/-- C2: for both index variants, `load (save index)` succeeds and the
reloaded index returns exactly the same `search` answer as the original for
every query and every query-time parameter setting. -/
theorem claim2_roundtrip :
    (∀ s : BruteForceIndex, ∃ s', BruteForceIndex.load s.save = .ok s' ∧
      ∀ (q : List Int) (k : Nat), s'.search q k = s.search q k) ∧
    (∀ s : HNSWIndex, ∃ s', HNSWIndex.load s.save = .ok s' ∧
      ∀ (q : List Int) (k ef : Nat), s'.search q k ef = s.search q k ef) := by
  constructor
  · intro s
    refine ⟨_, BruteForceIndex.load_save s, ?_⟩
    intro q k
    unfold BruteForceIndex.search
    unfold BruteForceIndex.livePairs
    rw [BruteForceIndex.liveEntries_load_save]
  · intro s
    exact ⟨s.strip, HNSWIndex.load_save_h s, fun q k ef => HNSWIndex.search_strip s q k ef⟩

/-- C3: for both index variants, a search on an index with zero live vectors
with a well-formed query succeeds with the empty sequence (never an
`EmptyIndex` error). -/
theorem claim3_empty_search :
    (∀ (s : BruteForceIndex) (q : List Int) (k : Nat), s.size = 0 → q.length = s.dim → 1 ≤ k →
      s.search q k = .ok []) ∧
    (∀ (s : HNSWIndex) (q : List Int) (k ef : Nat), s.size = 0 → q.length = s.dim → 1 ≤ k →
      k ≤ ef → s.search q k ef = .ok []) := by
  constructor
  · intro s q k h0 hq hk
    unfold BruteForceIndex.search
    rw [if_neg (by omega), if_neg (by omega)]
    have hnil : s.liveEntries = [] := List.length_eq_zero.mp h0
    unfold sortTake distSort BruteForceIndex.livePairs
    rw [hnil]
    simp
  · intro s q k ef h0 hq hk hef
    rw [HNSWIndex.search_ok s q k ef hq hk hef, HNSWIndex.searchCore_strip_empty s q k ef h0]

/-- Witness for C3 on concrete empty and all-tombstoned indexes. -/
theorem claim3_empty_search_witness :
    BruteForceIndex.search ⟨2, [⟨0, [1, 1], true⟩]⟩ [1, 2] 3 = .ok [] ∧
    HNSWIndex.search ⟨2, 2, 2, [], none⟩ [1, 2] 1 1 = .ok [] :=
  ⟨claim3_empty_search.1 ⟨2, [⟨0, [1, 1], true⟩]⟩ [1, 2] 3 (by decide) (by decide) (by decide),
    claim3_empty_search.2 ⟨2, 2, 2, [], none⟩ [1, 2] 1 1 (by decide) (by decide) (by decide)
      (by decide)⟩

/-- C4: for both index variants, `add` with a vector whose length differs
from the index dimensionality fails with `DimensionMismatch`, and `search`
with a query of the wrong length fails with `DimensionMismatch`. -/
theorem claim4_dimension_mismatch :
    (∀ (s : BruteForceIndex) (i : Nat) (v : List Int), v.length ≠ s.dim →
      s.add i v = .error .DimensionMismatch) ∧
    (∀ (s : BruteForceIndex) (q : List Int) (k : Nat), q.length ≠ s.dim →
      s.search q k = .error .DimensionMismatch) ∧
    (∀ (s : HNSWIndex) (level i : Nat) (v : List Int), v.length ≠ s.dim →
      s.add level i v = .error .DimensionMismatch) ∧
    (∀ (s : HNSWIndex) (q : List Int) (k ef : Nat), q.length ≠ s.dim →
      s.search q k ef = .error .DimensionMismatch) := by
  refine ⟨?_, ?_, ?_, ?_⟩
  · intro s i v h
    unfold BruteForceIndex.add BruteForceIndex.addR
    rw [if_pos h]
  · intro s q k h
    unfold BruteForceIndex.search
    rw [if_pos h]
  · intro s level i v h
    unfold HNSWIndex.add HNSWIndex.addR
    rw [if_pos h]
  · intro s q k ef h
    unfold HNSWIndex.search
    rw [if_pos h]

/-- Witness for C4 on concrete wrong-length vectors. -/
theorem claim4_dimension_mismatch_witness :
    BruteForceIndex.add ⟨2, []⟩ 0 [1] = .error .DimensionMismatch ∧
    BruteForceIndex.search ⟨2, []⟩ [1, 2, 3] 1 = .error .DimensionMismatch ∧
    HNSWIndex.add ⟨2, 2, 2, [], none⟩ 0 0 [1] = .error .DimensionMismatch ∧
    HNSWIndex.search ⟨2, 2, 2, [], none⟩ [1, 2, 3] 1 1 = .error .DimensionMismatch :=
  ⟨claim4_dimension_mismatch.1 ⟨2, []⟩ 0 [1] (by decide),
    claim4_dimension_mismatch.2.1 ⟨2, []⟩ [1, 2, 3] 1 (by decide),
    claim4_dimension_mismatch.2.2.1 ⟨2, 2, 2, [], none⟩ 0 0 [1] (by decide),
    claim4_dimension_mismatch.2.2.2 ⟨2, 2, 2, [], none⟩ [1, 2, 3] 1 1 (by decide)⟩

/-- C6: for both index variants, a failed `add` or `remove` leaves the index
in exactly its prior state (the state component of the result-and-state form
is unchanged whenever the result is an error). -/
theorem claim6_failed_mutation_atomic :
    (∀ (s : BruteForceIndex) (i : Nat) (v : List Int) (e : IndexError),
      (s.addR i v).1 = .error e → (s.addR i v).2 = s) ∧
    (∀ (s : BruteForceIndex) (i : Nat) (e : IndexError),
      (s.removeR i).1 = .error e → (s.removeR i).2 = s) ∧
    (∀ (s : HNSWIndex) (level i : Nat) (v : List Int) (e : IndexError),
      (s.addR level i v).1 = .error e → (s.addR level i v).2 = s) ∧
    (∀ (s : HNSWIndex) (i : Nat) (e : IndexError),
      (s.removeR i).1 = .error e → (s.removeR i).2 = s) := by
  refine ⟨?_, ?_, ?_, ?_⟩
  · intro s i v e h
    unfold BruteForceIndex.addR at h ⊢
    by_cases h1 : v.length ≠ s.dim
    · rw [if_pos h1]
    · rw [if_neg h1] at h ⊢
      by_cases h2 : i ∈ s.allIds
      · rw [if_pos h2]
      · rw [if_neg h2] at h
        simp at h
  · intro s i e h
    unfold BruteForceIndex.removeR at h ⊢
    cases hm : BruteForceIndex.markFirst s.entries i with
    | none => rfl
    | some es' =>
      rw [hm] at h
      simp at h
  · intro s level i v e h
    unfold HNSWIndex.addR at h ⊢
    by_cases h1 : v.length ≠ s.dim
    · rw [if_pos h1]
    · rw [if_neg h1] at h ⊢
      by_cases h2 : i ∈ s.allIds
      · rw [if_pos h2]
      · rw [if_neg h2] at h
        simp at h
  · intro s i e h
    cases hm : HNSWIndex.markFirstNode s.nodes i with
    | none =>
      show (s.removeR i).2 = s
      unfold HNSWIndex.removeR
      rw [hm]
    | some ns' =>
      rw [HNSWIndex.removeR_eq s i ns' hm] at h
      simp at h

/-- Witness for C6 on concrete failing calls. -/
theorem claim6_failed_mutation_atomic_witness :
    (BruteForceIndex.addR ⟨1, []⟩ 0 [1, 2]).2 = ⟨1, []⟩ ∧
    (BruteForceIndex.removeR ⟨1, []⟩ 0).2 = ⟨1, []⟩ ∧
    (HNSWIndex.addR ⟨1, 2, 2, [], none⟩ 0 0 [1, 2]).2 = ⟨1, 2, 2, [], none⟩ ∧
    (HNSWIndex.removeR ⟨1, 2, 2, [], none⟩ 0).2 = ⟨1, 2, 2, [], none⟩ :=
  ⟨claim6_failed_mutation_atomic.1 ⟨1, []⟩ 0 [1, 2] .DimensionMismatch (by rfl),
    claim6_failed_mutation_atomic.2.1 ⟨1, []⟩ 0 .NotFound (by rfl),
    claim6_failed_mutation_atomic.2.2.1 ⟨1, 2, 2, [], none⟩ 0 0 [1, 2] .DimensionMismatch (by rfl),
    claim6_failed_mutation_atomic.2.2.2 ⟨1, 2, 2, [], none⟩ 0 .NotFound (by rfl)⟩

/-- C7: `load` rejects with `CorruptIndex` any stream whose version tag is
unrecognized, whose declared vector count does not match the number of
records present, or (HNSW) whose neighbor lists reference an internal id not
present in the stream's vector set; it never parses such a stream into an
index. -/
theorem claim7_load_rejects_corrupt :
    (∀ st : SavedBF, st.version ≠ 1 → BruteForceIndex.load st = .error .CorruptIndex) ∧
    (∀ st : SavedBF, st.declaredCount ≠ st.records.length →
      BruteForceIndex.load st = .error .CorruptIndex) ∧
    (∀ st : SavedHNSW, st.version ≠ 1 → HNSWIndex.load st = .error .CorruptIndex) ∧
    (∀ st : SavedHNSW, st.declaredCount ≠ st.records.length →
      HNSWIndex.load st = .error .CorruptIndex) ∧
    (∀ st : SavedHNSW, (∃ r ∈ st.records, ∃ ls ∈ r.rnbrs, ∃ j ∈ ls, j ∉ HNSWIndex.recIds st) →
      HNSWIndex.load st = .error .CorruptIndex) := by
  refine ⟨?_, ?_, ?_, ?_, ?_⟩
  · intro st h
    unfold BruteForceIndex.load
    rw [if_pos h]
  · intro st h
    unfold BruteForceIndex.load
    by_cases h1 : st.version ≠ 1
    · rw [if_pos h1]
    · rw [if_neg h1]
      by_cases h2 : st.variantTag ≠ 0
      · rw [if_pos h2]
      · rw [if_neg h2, if_pos h]
  · intro st h
    unfold HNSWIndex.load
    rw [if_pos h]
  · intro st h
    unfold HNSWIndex.load
    by_cases h1 : st.version ≠ 1
    · rw [if_pos h1]
    · rw [if_neg h1]
      by_cases h2 : st.variantTag ≠ 1
      · rw [if_pos h2]
      · rw [if_neg h2, if_pos h]
  · intro st h
    obtain ⟨r, hr, ls, hls, j, hj, hnot⟩ := h
    have hfalse : ¬(HNSWIndex.refsOk st = true ∧ HNSWIndex.entryOk st = true) := by
      rintro ⟨hrefs, _⟩
      rw [HNSWIndex.refsOk, List.all_eq_true] at hrefs
      have h1 := hrefs r hr
      rw [List.all_eq_true] at h1
      have h2 := h1 ls hls
      rw [List.all_eq_true] at h2
      have h3 := h2 j hj
      exact hnot (of_decide_eq_true h3)
    unfold HNSWIndex.load
    by_cases h1 : st.version ≠ 1
    · rw [if_pos h1]
    · rw [if_neg h1]
      by_cases h2 : st.variantTag ≠ 1
      · rw [if_pos h2]
      · rw [if_neg h2]
        by_cases h3 : st.declaredCount ≠ st.records.length
        · rw [if_pos h3]
        · rw [if_neg h3, if_neg hfalse]

/-- Witness for C7 on concrete corrupt streams. -/
theorem claim7_load_rejects_corrupt_witness :
    BruteForceIndex.load ⟨7, 0, 2, 0, 0, []⟩ = .error .CorruptIndex ∧
    BruteForceIndex.load ⟨1, 0, 2, 0, 3, [(0, [1, 2])]⟩ = .error .CorruptIndex ∧
    HNSWIndex.load ⟨9, 1, 2, 0, 2, 2, 0, [], none⟩ = .error .CorruptIndex ∧
    HNSWIndex.load ⟨1, 1, 2, 0, 2, 2, 5, [⟨0, [1, 2], 0, [[]]⟩], none⟩ = .error .CorruptIndex ∧
    HNSWIndex.load ⟨1, 1, 2, 0, 2, 2, 1, [⟨0, [1, 2], 0, [[4]]⟩], none⟩ = .error .CorruptIndex :=
  ⟨claim7_load_rejects_corrupt.1 ⟨7, 0, 2, 0, 0, []⟩ (by decide),
    claim7_load_rejects_corrupt.2.1 ⟨1, 0, 2, 0, 3, [(0, [1, 2])]⟩ (by decide),
    claim7_load_rejects_corrupt.2.2.1 ⟨9, 1, 2, 0, 2, 2, 0, [], none⟩ (by decide),
    claim7_load_rejects_corrupt.2.2.2.1 ⟨1, 1, 2, 0, 2, 2, 5, [⟨0, [1, 2], 0, [[]]⟩], none⟩
      (by decide),
    claim7_load_rejects_corrupt.2.2.2.2 ⟨1, 1, 2, 0, 2, 2, 1, [⟨0, [1, 2], 0, [[4]]⟩], none⟩
      ⟨⟨0, [1, 2], 0, [[4]]⟩, by decide, [4], by decide, 4, by decide, by decide⟩⟩

/-- C5: for both index variants on a well-formed index, `remove i` fails
with `NotFound` when `i` is not live; when `i` is live it succeeds, `size`
decreases by exactly 1, a second `remove i` fails with `NotFound`, and `i`
never appears in any search result of any subsequently reachable state
(under any further sequence of `add`/`remove` operations). -/
theorem claim5_remove_semantics :
    (∀ (s : BruteForceIndex) (i : Nat), s.WF →
      (s.isLive i = false → s.remove i = .error .NotFound) ∧
      (s.isLive i = true → ∃ s', s.remove i = .ok s' ∧ s'.size + 1 = s.size ∧
        s'.remove i = .error .NotFound ∧
        ∀ (ops : List BFOp) (q : List Int) (k : Nat) (r : List (Nat × Int)) (d : Int),
          (s'.applyOps ops).search q k = .ok r → (i, d) ∉ r)) ∧
    (∀ (s : HNSWIndex) (i : Nat), s.WF →
      (s.isLive i = false → s.remove i = .error .NotFound) ∧
      (s.isLive i = true → ∃ s', s.remove i = .ok s' ∧ s'.size + 1 = s.size ∧
        s'.remove i = .error .NotFound ∧
        ∀ (ops : List HOp) (q : List Int) (k ef : Nat) (r : List (Nat × Int)) (d : Int),
          (s'.applyOps ops).search q k ef = .ok r → (i, d) ∉ r)) := by
  constructor
  · intro s i hWF
    refine ⟨BruteForceIndex.remove_not_live s i, ?_⟩
    intro hlive
    obtain ⟨es', hm⟩ := BruteForceIndex.markFirst_of_live s i hlive
    refine ⟨{ s with entries := es' }, BruteForceIndex.remove_ok s i es' hm,
      BruteForceIndex.size_markFirst s i es' hm, ?_, ?_⟩
    · exact BruteForceIndex.remove_not_live _ i
        (BruteForceIndex.isLive_markFirst_self s i es' hWF hm)
    · intro ops q k r d hsr hmem
      have htomb : ({ s with entries := es' } : BruteForceIndex).tomb i := by
        refine ⟨?_, BruteForceIndex.isLive_markFirst_self s i es' hWF hm⟩
        rw [BruteForceIndex.allIds_markFirst s i es' hm]
        exact BruteForceIndex.isLive_mem_allIds s i hlive
      have hWF' : ({ s with entries := es' } : BruteForceIndex).WF := by
        unfold BruteForceIndex.WF
        rw [BruteForceIndex.allIds_markFirst s i es' hm]
        exact hWF
      obtain ⟨htomb', _⟩ := BruteForceIndex.tomb_applyOps _ ops i htomb hWF'
      have hl2 : (BruteForceIndex.applyOps { s with entries := es' } ops).isLive i = true :=
        BruteForceIndex.search_mem_live _ q k r hsr (i, d) hmem
      have h2 := htomb'.2
      rw [hl2] at h2
      exact Bool.true_eq_false.mp h2
  · intro s i hWF
    refine ⟨HNSWIndex.remove_not_live_h s i, ?_⟩
    intro hlive
    obtain ⟨es', hm⟩ := HNSWIndex.markFirstNode_of_live s i hlive
    obtain ⟨hok, hnodes⟩ := HNSWIndex.remove_ok_of_live s i hlive
    have hnodes' : (s.removeR i).2.nodes = es' := by
      rw [hnodes, hm]
      rfl
    have hlive' : (s.removeR i).2.isLive i = false := by
      by_contra hc
      obtain ⟨x, hx, hxid, hxdel⟩ := (HNSWIndex.isLive_iff_nodes _ i).mp
        (BruteForceIndex.bool_eq_true_of_ne_false hc)
      have hx' : x ∈ es' := by
        rw [hnodes'] at hx
        exact hx
      exact HNSWIndex.isLive_markFirstNode_self s i es' hWF hm x hx' ⟨hxid, hxdel⟩
    refine ⟨(s.removeR i).2, hok, ?_, ?_, ?_⟩
    · show ((s.removeR i).2.liveNodes).length + 1 = s.size
      unfold HNSWIndex.liveNodes
      rw [hnodes']
      exact HNSWIndex.liveLen_markFirstNode s.nodes i es' hm
    · exact HNSWIndex.remove_not_live_h _ i hlive'
    · intro ops q k ef r d hsr hmem
      have htomb : (s.removeR i).2.tomb i := by
        refine ⟨?_, hlive'⟩
        show i ∈ (s.removeR i).2.nodes.map HNSWNode.nid
        rw [hnodes', HNSWIndex.map_nid_markFirstNode s.nodes i es' hm]
        exact HNSWIndex.isLive_mem_allIds_h s i hlive
      have hWF' : (s.removeR i).2.WF := by
        show ((s.removeR i).2.nodes.map HNSWNode.nid).Nodup
        rw [hnodes', HNSWIndex.map_nid_markFirstNode s.nodes i es' hm]
        exact hWF
      obtain ⟨htomb', _⟩ := HNSWIndex.tomb_applyOps_h _ ops i htomb hWF'
      have hl2 : (HNSWIndex.applyOps (s.removeR i).2 ops).isLive i = true :=
        HNSWIndex.search_mem_live_h _ q k ef r hsr (i, d) hmem
      have h2 := htomb'.2
      rw [hl2] at h2
      exact Bool.true_eq_false.mp h2

/-- Witness for C5 on a concrete two-element index per variant. -/
theorem claim5_remove_semantics_witness :
    (BruteForceIndex.remove ⟨1, [⟨0, [1], false⟩, ⟨1, [2], false⟩]⟩ 5 = .error .NotFound ∧
      ∃ s', BruteForceIndex.remove ⟨1, [⟨0, [1], false⟩, ⟨1, [2], false⟩]⟩ 1 = .ok s' ∧
        s'.size + 1 = BruteForceIndex.size ⟨1, [⟨0, [1], false⟩, ⟨1, [2], false⟩]⟩ ∧
        s'.remove 1 = .error .NotFound ∧
        ∀ (ops : List BFOp) (q : List Int) (k : Nat) (r : List (Nat × Int)) (d : Int),
          (s'.applyOps ops).search q k = .ok r → (1, d) ∉ r) ∧
    (HNSWIndex.remove ⟨1, 2, 2, [⟨0, [1], 0, [[]], false⟩], some 0⟩ 5 = .error .NotFound ∧
      ∃ s', HNSWIndex.remove ⟨1, 2, 2, [⟨0, [1], 0, [[]], false⟩], some 0⟩ 0 = .ok s' ∧
        s'.size + 1 = HNSWIndex.size ⟨1, 2, 2, [⟨0, [1], 0, [[]], false⟩], some 0⟩ ∧
        s'.remove 0 = .error .NotFound ∧
        ∀ (ops : List HOp) (q : List Int) (k ef : Nat) (r : List (Nat × Int)) (d : Int),
          (s'.applyOps ops).search q k ef = .ok r → (0, d) ∉ r) :=
  ⟨⟨(claim5_remove_semantics.1 ⟨1, [⟨0, [1], false⟩, ⟨1, [2], false⟩]⟩ 5
        (by show ([0, 1] : List Nat).Nodup; decide)).1 (by decide),
    (claim5_remove_semantics.1 ⟨1, [⟨0, [1], false⟩, ⟨1, [2], false⟩]⟩ 1
        (by show ([0, 1] : List Nat).Nodup; decide)).2 (by decide)⟩,
   ⟨(claim5_remove_semantics.2 ⟨1, 2, 2, [⟨0, [1], 0, [[]], false⟩], some 0⟩ 5
        (by show ([0] : List Nat).Nodup; decide)).1 (by decide),
    (claim5_remove_semantics.2 ⟨1, 2, 2, [⟨0, [1], 0, [[]], false⟩], some 0⟩ 0
        (by show ([0] : List Nat).Nodup; decide)).2 (by decide)⟩⟩

/-- C8: the neighbor-selection heuristic considers candidates in ascending
distance to the target (the sorted pool is `selLE`-sorted and the first pass
keeps a sublist of it), keeps a candidate exactly when it is not dominated
while the cap is unreached — every kept element is undominated by its kept
prefix, an undominated candidate under the cap is kept right after the kept
prefix of the candidates before it, and any other candidate goes to the
rejected pool at its position — then fills the remaining slots with the
next-closest rejected candidates regardless of dominance (the fill is the
prefix of the order-preserving rejected pool, and every filled candidate
precedes every unfilled one in the comparator order); the output size is
exactly `min Mcap |cands|`, drawn from the pool, never above `Mcap`. -/
theorem claim8_selection_heuristic :
    ∀ (t : List Int) (cands : List (Nat × List Int)) (Mcap : Nat),
      (selectNeighbors t cands Mcap).length = min Mcap cands.length ∧
      (selectNeighbors t cands Mcap).length ≤ Mcap ∧
      (∀ p ∈ selectNeighbors t cands Mcap, p ∈ cands) ∧
      List.Pairwise (selLE t) (selSort t cands) ∧
      (phase1Go t Mcap [] [] (selSort t cands)).1.Sublist (selSort t cands) ∧
      (∀ pre c post, (phase1Go t Mcap [] [] (selSort t cands)).1 = pre ++ c :: post →
        notDominated pre c.2 (sqDist t c.2) = true ∧ pre.length < Mcap) ∧
      (∀ pre c post, selSort t cands = pre ++ c :: post →
        (phase1Go t Mcap [] [] pre).1.length < Mcap →
        notDominated (phase1Go t Mcap [] [] pre).1 c.2 (sqDist t c.2) = true →
        ∃ tail, (phase1Go t Mcap [] [] (selSort t cands)).1
          = (phase1Go t Mcap [] [] pre).1 ++ c :: tail) ∧
      (∀ pre c post, selSort t cands = pre ++ c :: post →
        ¬((phase1Go t Mcap [] [] pre).1.length < Mcap ∧
          notDominated (phase1Go t Mcap [] [] pre).1 c.2 (sqDist t c.2) = true) →
        ∃ tail, (phase1Go t Mcap [] [] (selSort t cands)).2
          = (phase1Go t Mcap [] [] pre).2 ++ c :: tail) ∧
      selectNeighbors t cands Mcap
        = (phase1Go t Mcap [] [] (selSort t cands)).1 ++
          (phase1Go t Mcap [] [] (selSort t cands)).2.take
            (Mcap - (phase1Go t Mcap [] [] (selSort t cands)).1.length) ∧
      (phase1Go t Mcap [] [] (selSort t cands)).2.Sublist (selSort t cands) ∧
      (∀ x ∈ (phase1Go t Mcap [] [] (selSort t cands)).2.take
          (Mcap - (phase1Go t Mcap [] [] (selSort t cands)).1.length),
        ∀ y ∈ (phase1Go t Mcap [] [] (selSort t cands)).2.drop
          (Mcap - (phase1Go t Mcap [] [] (selSort t cands)).1.length), selLE t x y) := by
  intro t cands Mcap
  obtain ⟨extra, h1, h2, h3⟩ := phase1Go_kept t Mcap (selSort t cands) [] []
  have hkept : (phase1Go t Mcap [] [] (selSort t cands)).1 = extra := by
    rw [h1]
    rfl
  obtain ⟨rextra, hr1, hr2⟩ := phase1Go_rej t Mcap (selSort t cands) [] []
  have hrej : (phase1Go t Mcap [] [] (selSort t cands)).2 = rextra := by
    rw [hr1]
    rfl
  have hrejsub : (phase1Go t Mcap [] [] (selSort t cands)).2.Sublist (selSort t cands) := by
    rw [hrej]
    exact hr2
  refine ⟨selectNeighbors_length t cands Mcap, ?_, selectNeighbors_subset t cands Mcap,
    selSort_sorted t cands, ?_, ?_, ?_, ?_, rfl, hrejsub, ?_⟩
  · rw [selectNeighbors_length t cands Mcap]
    exact Nat.min_le_left _ _
  · rw [hkept]
    exact h2
  · intro pre c post hdec
    rw [hkept] at hdec
    have := h3 pre c post hdec
    simpa using this
  · intro pre c post hdec hlen hdom
    exact phase1Go_keeps_undominated t Mcap cands pre c post hdec hlen hdom
  · intro pre c post hdec hnot
    exact phase1Go_rejects_dominated t Mcap cands pre c post hdec hnot
  · have hsorted : List.Pairwise (selLE t)
        ((phase1Go t Mcap [] [] (selSort t cands)).2) :=
      (selSort_sorted t cands).sublist hrejsub
    have hsplit := List.take_append_drop
      (Mcap - (phase1Go t Mcap [] [] (selSort t cands)).1.length)
      ((phase1Go t Mcap [] [] (selSort t cands)).2)
    rw [← hsplit] at hsorted
    exact (List.pairwise_append.mp hsorted).2.2

/-- Witness for C8 on concrete inputs: with target `[0]`, candidates at
distances 1, 4, 25 and cap 2, the closest candidate is undominated and kept,
the second is dominated and rejected into the fill pool, and the fill
precedes the dropped remainder in the comparator order. -/
theorem claim8_selection_heuristic_witness :
    (1, [(1 : Int)]) ∈ ([(1, [1]), (2, [2]), (3, [5])] : List (Nat × List Int)) ∧
    (notDominated [] [(1 : Int)] (sqDist [0] [1]) = true ∧
      ([] : List (Nat × List Int)).length < 2) ∧
    (∃ tail, (phase1Go [0] 2 [] [] (selSort [0] [(1, [1]), (2, [2]), (3, [5])])).1
      = (phase1Go [0] 2 [] [] []).1 ++ (1, [1]) :: tail) ∧
    (∃ tail, (phase1Go [0] 2 [] [] (selSort [0] [(1, [1]), (2, [2]), (3, [5])])).2
      = (phase1Go [0] 2 [] [] [(1, [1])]).2 ++ (2, [2]) :: tail) ∧
    selLE [0] (2, [2]) (3, [5]) :=
  ⟨(claim8_selection_heuristic [0] [(1, [1]), (2, [2]), (3, [5])] 2).2.2.1 (1, [1]) (by decide),
    (claim8_selection_heuristic [0] [(1, [1]), (2, [2]), (3, [5])] 2).2.2.2.2.2.1 [] (1, [1])
      [] (by decide),
    (claim8_selection_heuristic [0] [(1, [1]), (2, [2]), (3, [5])] 2).2.2.2.2.2.2.1
      [] (1, [1]) [(2, [2]), (3, [5])] (by decide) (by decide) (by decide),
    (claim8_selection_heuristic [0] [(1, [1]), (2, [2]), (3, [5])] 2).2.2.2.2.2.2.2.1
      [(1, [1])] (2, [2]) [(3, [5])] (by decide) (by decide),
    (claim8_selection_heuristic [0] [(1, [1]), (2, [2]), (3, [5])] 2).2.2.2.2.2.2.2.2.2.2
      (2, [2]) (by decide) (3, [5]) (by decide)⟩

/-- C9: the variant set is closed — `src/db/indexes/__init__.py` exports
exactly `BaseIndex`, `BruteForceIndex`, `HNSWIndex`, the variant type has
exactly the two index variants, and each variant carries its implementation
of the full BaseIndex capability set {add, search, remove, size, save,
load}. -/
theorem claim9_closed_variants :
    indexesAllList = ["BaseIndex", "BruteForceIndex", "HNSWIndex"] ∧
    exportsOf indexesInitBody = indexesAllList ∧
    (∀ v : IndexVariant, v = IndexVariant.bruteForce ∨ v = IndexVariant.hnsw) ∧
    variantOps IndexVariant.bruteForce = bruteForceOps ∧
    variantOps IndexVariant.hnsw = hnswOps ∧
    variantState IndexVariant.bruteForce = BruteForceIndex ∧
    variantState IndexVariant.hnsw = HNSWHandle := by
  refine ⟨rfl, by decide, ?_, rfl, rfl, rfl, rfl⟩
  intro v
  cases v
  · exact Or.inl rfl
  · exact Or.inr rfl

/-- Witness for C9: the closedness conjunct at a concrete variant. -/
theorem claim9_closed_variants_witness :
    IndexVariant.hnsw = IndexVariant.bruteForce ∨ IndexVariant.hnsw = IndexVariant.hnsw :=
  claim9_closed_variants.2.2.1 IndexVariant.hnsw

/-- C10: neither `src/db/__init__.py` nor `src/db/indexes/__init__.py`
defines a class or function of its own; every exported name is imported
from a module rooted at the external `vec_db` package; and evaluating
either module body succeeds exactly when the imported `vec_db` modules are
importable, raising ImportError otherwise. -/
theorem claim10_init_reexports :
    definesOwn dbInitBody = false ∧
    definesOwn indexesInitBody = false ∧
    exportsOf dbInitBody = dbAllList ∧
    (["vec_db", "core"], "VectorDB") ∈ importsOf dbInitBody ∧
    exportsOf indexesInitBody = indexesAllList ∧
    (["vec_db", "indexes", "base_index"], "BaseIndex") ∈ importsOf indexesInitBody ∧
    (["vec_db", "indexes", "brute_force_index"], "BruteForceIndex") ∈ importsOf indexesInitBody ∧
    (["vec_db", "indexes", "hnsw_index"], "HNSWIndex") ∈ importsOf indexesInitBody ∧
    (∀ m n, (m, n) ∈ importsOf dbInitBody → m.headD "" = "vec_db") ∧
    (∀ m n, (m, n) ∈ importsOf indexesInitBody → m.headD "" = "vec_db") ∧
    (∀ imp : List String → Bool,
      (evalModule imp dbInitBody = .ok () ↔ imp ["vec_db", "core"] = true)) ∧
    (∀ imp : List String → Bool,
      (evalModule imp indexesInitBody = .ok () ↔
        (imp ["vec_db", "indexes", "base_index"] = true ∧
          imp ["vec_db", "indexes", "brute_force_index"] = true ∧
          imp ["vec_db", "indexes", "hnsw_index"] = true))) ∧
    (∀ imp : List String → Bool, evalModule imp dbInitBody = .ok () ∨
      evalModule imp dbInitBody = .error "ImportError") ∧
    (∀ imp : List String → Bool, evalModule imp indexesInitBody = .ok () ∨
      evalModule imp indexesInitBody = .error "ImportError") := by
  refine ⟨by decide, by decide, by decide, by decide, by decide, by decide, by decide, by decide,
    ?_, ?_, ?_, ?_, ?_, ?_⟩
  · intro m n h
    simp only [importsOf, dbInitBody, List.foldr] at h
    have h' : (m, n) ∈ [((["vec_db", "core"] : List String), "VectorDB")] := h
    have := List.mem_singleton.mp h'
    rw [show m = ["vec_db", "core"] from congrArg Prod.fst this]
    rfl
  · intro m n h
    simp only [importsOf, indexesInitBody, List.foldr] at h
    have h' : (m, n) ∈ [((["vec_db", "indexes", "base_index"] : List String), "BaseIndex"),
      (["vec_db", "indexes", "brute_force_index"], "BruteForceIndex"),
      (["vec_db", "indexes", "hnsw_index"], "HNSWIndex")] := h
    simp only [List.mem_cons, List.not_mem_nil, or_false] at h'
    rcases h' with h0 | h0 | h0
    · rw [show m = ["vec_db", "indexes", "base_index"] from congrArg Prod.fst h0]
      rfl
    · rw [show m = ["vec_db", "indexes", "brute_force_index"] from congrArg Prod.fst h0]
      rfl
    · rw [show m = ["vec_db", "indexes", "hnsw_index"] from congrArg Prod.fst h0]
      rfl
  · intro imp
    by_cases h : imp ["vec_db", "core"] = true
    · simp [dbInitBody, evalModule, h]
    · simp [dbInitBody, evalModule, h]
  · intro imp
    by_cases h1 : imp ["vec_db", "indexes", "base_index"] = true
    · by_cases h2 : imp ["vec_db", "indexes", "brute_force_index"] = true
      · by_cases h3 : imp ["vec_db", "indexes", "hnsw_index"] = true
        · simp [indexesInitBody, evalModule, h1, h2, h3]
        · simp [indexesInitBody, evalModule, h1, h2, h3]
      · simp [indexesInitBody, evalModule, h1, h2]
    · simp [indexesInitBody, evalModule, h1]
  · intro imp
    by_cases h : imp ["vec_db", "core"] = true
    · left; simp [dbInitBody, evalModule, h]
    · right; simp [dbInitBody, evalModule, h]
  · intro imp
    by_cases h1 : imp ["vec_db", "indexes", "base_index"] = true
    · by_cases h2 : imp ["vec_db", "indexes", "brute_force_index"] = true
      · by_cases h3 : imp ["vec_db", "indexes", "hnsw_index"] = true
        · left; simp [indexesInitBody, evalModule, h1, h2, h3]
        · right; simp [indexesInitBody, evalModule, h1, h2, h3]
      · right; simp [indexesInitBody, evalModule, h1, h2]
    · right; simp [indexesInitBody, evalModule, h1]

/-- Witness for C10: the vec_db-root property at the concrete import of
`src/db/__init__.py`. -/
theorem claim10_init_reexports_witness :
    (["vec_db", "core"] : List String).headD "" = "vec_db" :=
  claim10_init_reexports.2.2.2.2.2.2.2.2.1 ["vec_db", "core"] "VectorDB" (by decide)
